import Mathlib

/-!
Verification of the `duit` input-interpretation pipeline: the Indonesian
amount-notation parser (`parseAmount`, `parseInput` from
`src/lib/services/parser.ts`), the categorization engine (`categorize`,
`categorizeWithFallback`, `categorizeFromDefaults`, `levenshteinDistance`,
`stringSimilarity`, `findFuzzyMatch` from `src/lib/services/categorizer.ts`),
the remote classifier contract (`parseCategory`, `categorizeWithGemini` from
`src/lib/services/gemini.ts`) and the learned-mapping store operations
(`setCategoryMapping`, `getCategoryMapping` from `src/lib/db/index.ts`).

Strings are modelled as Lean `String`/`List Char`; JavaScript numbers are
modelled as exact rationals (`ℚ`); the regular expressions of the source are
modelled by explicit matchers that follow the JS backtracking semantics of
each concrete pattern; the IndexedDB `categoryMappings` table is modelled as
an association list keyed by `keyword`; the Gemini HTTP exchange is modelled
by an explicit environment record enumerating its observable outcomes.
-/

namespace Duit

/-! ### Character classes and string primitives (JS semantics) -/

/-- JS `\s` / `trim` whitespace, restricted to the ASCII range. -/
def isSpaceChar (c : Char) : Bool :=
  c = ' ' || c = '\t' || c = '\n' || c = '\r' || c = '\x0b' || c = '\x0c'

/-- JS `\d`: the ASCII digits (code points 48–57). -/
def isDigitChar (c : Char) : Bool := 48 ≤ c.toNat && c.toNat ≤ 57

/-- The two separator characters `[.,]` of the amount grammars. -/
def isSepChar (c : Char) : Bool := c = '.' || c = ','

/-- JS `\w` word character (letters, digits, underscore), used by the `\b`
boundary of the bare-digits extractor. -/
def isWordChar (c : Char) : Bool :=
  (97 ≤ c.toNat && c.toNat ≤ 122) || (65 ≤ c.toNat && c.toNat ≤ 90) ||
    isDigitChar c || c = '_'

/-- `String.prototype.toLowerCase` on the ASCII range: uppercase letters
(code points 65–90) shift by 32, all other characters are unchanged. -/
def lowerChar (c : Char) : Char :=
  if 65 ≤ c.toNat ∧ c.toNat ≤ 90 then Char.ofNat (c.toNat + 32) else c

/-- `String.prototype.trim`: drop whitespace from both ends. -/
def trimChars (l : List Char) : List Char :=
  ((l.dropWhile isSpaceChar).reverse.dropWhile isSpaceChar).reverse

/-- Numeric value of an ASCII digit. -/
def digitVal (c : Char) : ℕ := c.toNat - 48

/-- `parseInt(s, 10)` on a string of ASCII digits. -/
def digitsVal (l : List Char) : ℕ := l.foldl (fun a c => 10 * a + digitVal c) 0

/-- `needle` occurs at the start of `hay`. -/
def startsWith : List Char → List Char → Bool
  | [], _ => true
  | _ :: _, [] => false
  | n :: ns, h :: hs => n = h && startsWith ns hs

/-- JS `String.prototype.includes`: `needle` occurs somewhere in `hay`. -/
def containsSub (hay needle : List Char) : Bool :=
  (List.range (hay.length + 1)).any (fun i => startsWith needle (hay.drop i))

/-- JS `split(/\s+/)` on an already-trimmed string: maximal runs of
non-whitespace characters. -/
def splitWs (l : List Char) : List (List Char) :=
  (l.splitOnP isSpaceChar).filter (fun w => ¬ w.isEmpty)

/-- `Math.round`: round half toward positive infinity. -/
def jsRound (q : ℚ) : ℤ := Int.floor (q + 1/2)

/-! ### `parseAmount` (`parser.ts` lines 17–82)

Each anchored regular expression of the source is modelled by a dedicated
matcher over the cleaned (trimmed, lowercased) character list.  The matchers
follow the JS backtracking semantics of the concrete pattern; where greedy
matching with backtracking provably never revisits a choice point (because
the following pattern element can never match at the alternative positions),
the matcher commits to the greedy choice directly.
-/

/-- Anchored matcher for `^(\d+)([.,](\d+))?\s*(S₁|S₂|…)$` where the `Sᵢ` are
the (lowercase, nonempty, letter-only) magnitude suffixes.  Returns the whole
digits and the fractional digits (empty list when the optional group is
absent).  Backtracking inside `\d+`/`\d*` never helps here because the
suffixes start with letters and a shortened digit run leaves a digit where
the separator, whitespace or suffix would have to match. -/
def matchNumSuffix (sfxs : List (List Char)) (s : List Char) :
    Option (List Char × List Char) :=
  let w := s.takeWhile isDigitChar
  if w.isEmpty then none
  else
    let r1 := s.dropWhile isDigitChar
    let noGroup : Option (List Char × List Char) :=
      if (r1.dropWhile isSpaceChar) ∈ sfxs then some (w, []) else none
    match r1 with
    | [] => noGroup
    | c :: r2 =>
      if isSepChar c then
        let f := r2.takeWhile isDigitChar
        if ¬ f.isEmpty ∧ ((r2.dropWhile isDigitChar).dropWhile isSpaceChar) ∈ sfxs then
          some (w, f)
        else noGroup
      else noGroup

/-- `([.,]\d{3})+` anchored to the end of the list: one or more groups of a
separator followed by exactly three digits. -/
def sepGroups : List Char → Bool
  | c :: a :: b :: d :: rest =>
    isSepChar c && isDigitChar a && isDigitChar b && isDigitChar d &&
      (rest.isEmpty || sepGroups rest)
  | _ => false

/-- Anchored matcher for `^(\d{1,3})([.,]\d{3})+$`.  `\d{1,3}` is greedy, so
three leading digits are tried first, then two, then one.  On success the
value is `parseInt` of the string with all separators removed. -/
def matchThousandSep (s : List Char) : Option ℕ :=
  let a := (s.takeWhile isDigitChar).length
  if 3 ≤ a ∧ sepGroups (s.drop 3) then
    some (digitsVal (s.filter (fun c => ¬ isSepChar c)))
  else if 2 ≤ a ∧ sepGroups (s.drop 2) then
    some (digitsVal (s.filter (fun c => ¬ isSepChar c)))
  else if 1 ≤ a ∧ sepGroups (s.drop 1) then
    some (digitsVal (s.filter (fun c => ¬ isSepChar c)))
  else none

/-- Anchored matcher for `^(\d+)[.,](\d+)$`: a nonempty digit run, one
separator, and a nonempty digit run reaching the end. -/
def matchDecimal (s : List Char) : Option (List Char × List Char) :=
  let d1 := s.takeWhile isDigitChar
  match s.dropWhile isDigitChar with
  | [] => none
  | c :: rest =>
    if isSepChar c ∧ ¬ d1.isEmpty ∧ ¬ rest.isEmpty ∧ rest.all isDigitChar then
      some (d1, rest)
    else none

/-- Value of a whole part plus fractional digits: `whole + frac / 10^len`,
exactly as the source computes `wholePart + decimalPart / decimalMultiplier`. -/
def fracValue (w f : List Char) : ℚ :=
  (digitsVal w : ℚ) + (digitsVal f : ℚ) / (10 : ℚ) ^ f.length

/-- `parseAmount` (`parser.ts` 17–82): trim and lowercase, then try in order
the million-suffix grammar, the thousand-suffix grammar, the grouped
thousand-separator grammar, plain digits, and the decimal fallback. -/
def parseAmount (input : String) : Option ℚ :=
  let cleaned := (trimChars input.data).map lowerChar
  if cleaned.isEmpty then none
  else
    match matchNumSuffix [['j', 't'], ['j', 'u', 't', 'a']] cleaned with
    | some (w, f) => some ((jsRound (fracValue w f * 1000000) : ℚ))
    | none =>
    match matchNumSuffix [['r', 'b'], ['r', 'i', 'b', 'u'], ['k']] cleaned with
    | some (w, f) => some ((jsRound (fracValue w f * 1000) : ℚ))
    | none =>
    match matchThousandSep cleaned with
    | some n => some (n : ℚ)
    | none =>
    if ¬ cleaned.isEmpty ∧ cleaned.all isDigitChar then
      some ((digitsVal cleaned : ℚ))
    else
      match matchDecimal cleaned with
      | some (d1, d2) =>
        if d2.length < 3 then
          some ((digitsVal d1 : ℚ) + (digitsVal d2 : ℚ) / (10 : ℚ) ^ d2.length)
        else
          some ((digitsVal (d1 ++ d2) : ℚ))
      | none => none


/-! ### `parseInput` (`parser.ts` lines 88–155)

The four unanchored extractor patterns are modelled by position-wise
matchers: `matchAt s i` returns the end position of the match starting at
`i`, following the backtracking preference order of the JS engine, and the
leftmost match is found by scanning `i` upward, exactly as `String.match`
does. -/

/-- Length of the digit run of `s` starting at position `i`. -/
def digitRunLen (s : List Char) (i : ℕ) : ℕ :=
  ((s.drop i).takeWhile isDigitChar).length

/-- Length of the whitespace run of `s` starting at position `i`. -/
def spaceRunLen (s : List Char) (i : ℕ) : ℕ :=
  ((s.drop i).takeWhile isSpaceChar).length

/-- First alternative (in order) of `alts` that matches case-insensitively at
position `i`; returns its length.  Models an alternation like `(rb|ribu|k)`
under the `i` flag, whose leftmost alternative wins. -/
def firstAlt (alts : List (List Char)) (s : List Char) (i : ℕ) : Option ℕ :=
  alts.findSome? (fun a =>
    if startsWith a ((s.drop i).map lowerChar) then some a.length else none)

/-- `\s*(alt₁|alt₂|…)` at position `e`: the greedy whitespace run followed by
the suffix alternation.  Shrinking `\s*` never helps because the suffixes
contain no whitespace characters. -/
def suffixEnd (alts : List (List Char)) (s : List Char) (e : ℕ) : Option ℕ :=
  let w := spaceRunLen s e
  (firstAlt alts s (e + w)).map (fun len => e + w + len)

/-- End positions that the backtracking engine tries, in order, for the group
`\d+[.,]?\d*` starting at position `i` (with at least one digit present):
first the separator-and-fraction endpoints, longest fraction first, then the
bare digit-run endpoints, longest first. -/
def numEndpoints (s : List Char) (i : ℕ) : List ℕ :=
  let a := digitRunLen s i
  let sepEnds : List ℕ :=
    if isSepChar (s.getD (i + a) ' ') then
      let b := digitRunLen s (i + a + 1)
      (List.range (b + 1)).map (fun j => i + a + 1 + b - j)
    else []
  let plainEnds : List ℕ := (List.range a).map (fun j => i + a - j)
  sepEnds ++ plainEnds

/-- Matcher at position `i` for `(\d+[.,]?\d*)\s*(alt₁|alt₂|…)` (patterns 1
and 2 of `parseInput`, under the `i` flag). -/
def suffixMatchAt (alts : List (List Char)) (s : List Char) (i : ℕ) : Option ℕ :=
  if digitRunLen s i = 0 then none
  else (numEndpoints s i).findSome? (fun e => suffixEnd alts s e)

/-- Number of consecutive `[.,]\d{3}` groups at the head of the list (greedy,
as `(?:[.,]\d{3})+` with nothing following). -/
def groupCount : List Char → ℕ
  | c :: a :: b :: d :: rest =>
    if isSepChar c && isDigitChar a && isDigitChar b && isDigitChar d then
      groupCount rest + 1
    else 0
  | _ => 0

/-- Matcher at position `i` for `(\d{1,3}(?:[.,]\d{3})+)` (pattern 3): the
greedy `\d{1,3}` tries three, two, then one digit, and the group repetition
is greedy. -/
def sepMatchAt (s : List Char) (i : ℕ) : Option ℕ :=
  let a := digitRunLen s i
  ([3, 2, 1] : List ℕ).findSome? (fun k =>
    if k ≤ a then
      let r := groupCount (s.drop (i + k))
      if 1 ≤ r then some (i + k + 4 * r) else none
    else none)

/-- Whether position `i` holds a word character (`\w`); positions outside the
string count as non-word. -/
def isWordAt (s : List Char) (i : ℕ) : Bool :=
  isWordChar (s.getD i ' ')

/-- JS `\b` word boundary at position `i`. -/
def boundaryAt (s : List Char) (i : ℕ) : Bool :=
  let prev := match i with
    | 0 => false
    | j + 1 => isWordAt s j
  prev != isWordAt s i

/-- Matcher at position `i` for `\b(\d{2,})\b` (pattern 4): boundary, then a
greedy digit run of length ≥ 2 (longest first), then a boundary. -/
def bareMatchAt (s : List Char) (i : ℕ) : Option ℕ :=
  if boundaryAt s i then
    let a := digitRunLen s i
    (((List.range (a + 1)).map (fun j => a - j)).filter (fun len => 2 ≤ len)).findSome?
      (fun len => if boundaryAt s (i + len) then some (i + len) else none)
  else none

/-- Leftmost match of a position-wise matcher: the JS engine scans start
positions from the left and returns the first that matches. -/
def firstMatchPos (m : List Char → ℕ → Option ℕ) (s : List Char) :
    Option (ℕ × ℕ) :=
  (List.range (s.length + 1)).findSome? (fun i => (m s i).map (fun e => (i, e)))

/-- The four extractor patterns of `parseInput`, in source order: million
suffixes, thousand suffixes, grouped separators, bare multi-digit. -/
def amountPatterns : List (List Char → ℕ → Option ℕ) :=
  [suffixMatchAt [['j', 't'], ['j', 'u', 't', 'a']],
   suffixMatchAt [['r', 'b'], ['r', 'i', 'b', 'u'], ['k']],
   sepMatchAt,
   bareMatchAt]

/-- The loop of `parseInput` lines 117–124: the first pattern with a match
anywhere in the string supplies its leftmost match as the amount substring. -/
def extractAmountStr (s : List Char) : Option (List Char) :=
  amountPatterns.findSome? (fun m =>
    (firstMatchPos m s).map (fun p => (s.drop p.1).take (p.2 - p.1)))

/-- Index of the first occurrence of `needle` in `hay`, if any. -/
def firstIndexOfSub (hay needle : List Char) : Option ℕ :=
  (List.range (hay.length + 1)).find? (fun i => startsWith needle (hay.drop i))

/-- JS `String.prototype.replace(needle, '')` with a string pattern: remove
the first occurrence only. -/
def removeFirstSub (hay needle : List Char) : List Char :=
  match firstIndexOfSub hay needle with
  | none => hay
  | some i => hay.take i ++ hay.drop (i + needle.length)

/-- Helper for `collapseWs`: `prevSpace` records whether the previous
character belonged to a whitespace run already replaced by a space. -/
def collapseWsAux (prevSpace : Bool) : List Char → List Char
  | [] => []
  | c :: rest =>
    if isSpaceChar c then
      (if prevSpace then [] else [' ']) ++ collapseWsAux true rest
    else c :: collapseWsAux false rest

/-- JS `replace(/\s+/g, ' ')`: each maximal whitespace run becomes one
space. -/
def collapseWs (l : List Char) : List Char := collapseWsAux false l

/-- The punctuation class `[,.\-:]` stripped from the edges of the
description. -/
def isPunctChar (c : Char) : Bool :=
  c = ',' || c = '.' || c = '-' || c = ':'

/-- JS `replace(/^[,.\-:]+|[,.\-:]+$/g, '')`: drop the leading and trailing
runs of punctuation. -/
def stripEdgePunct (l : List Char) : List Char :=
  ((l.dropWhile isPunctChar).reverse.dropWhile isPunctChar).reverse

/-- The result record of `parseInput` (`parser.ts` lines 6–9). -/
structure ParsedInput where
  description : String
  amount : ℚ
deriving DecidableEq, Repr

/-- `parseInput` (`parser.ts` 88–155): locate the amount token with the first
matching extractor, parse it, and clean up the remaining description. -/
def parseInput (input : String) : Option ParsedInput :=
  let trimmed := trimChars input.data
  if trimmed.isEmpty then none
  else
    match extractAmountStr trimmed with
    | none => none
    | some amountStr =>
      match parseAmount (String.mk amountStr) with
      | none => none
      | some amount =>
        if amount ≤ 0 then none
        else
          let description :=
            trimChars (stripEdgePunct (collapseWs (trimChars
              (removeFirstSub trimmed amountStr))))
          if description.isEmpty then none
          else some ⟨String.mk description, amount⟩

/-! ### Categories and the static keyword table (`db/index.ts` line 4,
`categorizer.ts` lines 5–115) -/

/-- The closed category enumeration of `db/index.ts` line 4. -/
inductive Category where
  | food | transport | bills | shopping | entertainment | income | other
deriving DecidableEq, Repr

open Category

/-- The literal name of each category, as used by the keyword table and the
remote-reply parser. -/
def categoryName : Category → String
  | food => "food"
  | transport => "transport"
  | bills => "bills"
  | shopping => "shopping"
  | entertainment => "entertainment"
  | income => "income"
  | other => "other"

/-- `DEFAULT_KEYWORDS` (`categorizer.ts` 5–115), in source insertion order
(`Object.entries`/`Object.keys` preserve it for these non-numeric keys). -/
def DEFAULT_KEYWORDS : List (String × Category) :=
  [("bakso", food), ("mie", food), ("nasi", food), ("kopi", food),
   ("gofood", food), ("grabfood", food), ("makan", food), ("ayam", food),
   ("sate", food), ("soto", food), ("warung", food), ("resto", food),
   ("restaurant", food), ("cafe", food), ("starbucks", food),
   ("mcdonalds", food), ("kfc", food), ("pizza", food), ("burger", food),
   ("indomie", food), ("snack", food),
   ("grab", transport), ("gojek", transport), ("bensin", transport),
   ("parkir", transport), ("tol", transport), ("ojol", transport),
   ("ojek", transport), ("taxi", transport), ("taksi", transport),
   ("bus", transport), ("kereta", transport), ("mrt", transport),
   ("lrt", transport), ("transjakarta", transport), ("angkot", transport),
   ("bbm", transport), ("pertamina", transport), ("shell", transport),
   ("listrik", bills), ("pln", bills), ("wifi", bills), ("pulsa", bills),
   ("sewa", bills), ("kos", bills), ("kontrakan", bills), ("pdam", bills),
   ("air", bills), ("internet", bills), ("indihome", bills),
   ("biznet", bills), ("telkomsel", bills), ("xl", bills),
   ("indosat", bills), ("three", bills), ("tri", bills),
   ("shopee", shopping), ("tokopedia", shopping), ("baju", shopping),
   ("indomaret", shopping), ("alfamart", shopping), ("lazada", shopping),
   ("bukalapak", shopping), ("blibli", shopping), ("zalora", shopping),
   ("uniqlo", shopping), ("hm", shopping), ("zara", shopping),
   ("sepatu", shopping), ("celana", shopping), ("kaos", shopping),
   ("supermarket", shopping), ("mall", shopping),
   ("netflix", entertainment), ("spotify", entertainment),
   ("bioskop", entertainment), ("game", entertainment),
   ("cinema", entertainment), ("xxi", entertainment), ("cgv", entertainment),
   ("youtube", entertainment), ("disney", entertainment),
   ("steam", entertainment), ("playstation", entertainment),
   ("xbox", entertainment), ("nintendo", entertainment),
   ("konser", entertainment), ("tiket", entertainment),
   ("gaji", income), ("salary", income), ("freelance", income),
   ("bonus", income), ("thr", income), ("dividen", income),
   ("bunga", income), ("cashback", income), ("refund", income),
   ("transfer", income)]

/-- `word in DEFAULT_KEYWORDS` followed by indexing: association-list
lookup. -/
def defaultLookup (w : String) : Option Category :=
  (DEFAULT_KEYWORDS.find? (fun e => e.1 == w)).map (fun e => e.2)

/-! ### Fuzzy matching (`categorizer.ts` lines 121–190) -/

/-- Inner loop of the `levenshteinDistance` dynamic program: given the char
`c1` = `str1[i-1]` of the current row, the remaining chars of `str2`, the
tail of the previous row starting at the diagonal entry `dp[i-1][j-1]`, and
the entry `left` = `dp[i][j-1]`, produce the entries `dp[i][j…]`.  `up` is
`dp[i-1][j]`, the next entry of the previous row. -/
def levRowAux (c1 : Char) : List Char → List ℕ → ℕ → List ℕ
  | [], _, _ => []
  | _ :: _, [], _ => []
  | c2 :: s2, diag :: rest, left =>
    let up := rest.headD 0
    let cur := if c1 = c2 then diag else 1 + min up (min left diag)
    cur :: levRowAux c1 s2 rest cur

/-- Outer loop of the dynamic program: fold the rows over the chars of
`str1`; row `i` is `dp[i][0] = i` followed by the `levRowAux` entries. -/
def levRows (s2 : List Char) : List Char → List ℕ → ℕ → List ℕ
  | [], prev, _ => prev
  | c :: s1, prev, i => levRows s2 s1 (i :: levRowAux c s2 prev i) (i + 1)

/-- `levenshteinDistance` (`categorizer.ts` 121–154): the `(m+1)×(n+1)`
dynamic-programming table, returning `dp[m][n]`. -/
def levenshteinDistance (str1 str2 : String) : ℕ :=
  let s1 := str1.data
  let s2 := str2.data
  (levRows s2 s1 (List.range (s2.length + 1)) 1).getD s2.length 0

/-- `stringSimilarity` (`categorizer.ts` 160–166):
`1 - distance / max(len₁, len₂)`, and `1` when both strings are empty. -/
def stringSimilarity (str1 str2 : String) : ℚ :=
  let maxLength := max str1.length str2.length
  if maxLength = 0 then 1
  else 1 - (levenshteinDistance str1 str2 : ℚ) / (maxLength : ℚ)

/-- The result record of `findFuzzyMatch`. -/
structure FuzzyMatch where
  keyword : String
  similarity : ℚ
deriving DecidableEq, Repr

/-- `findFuzzyMatch` (`categorizer.ts` 172–190): best candidate at or above
the threshold; a later candidate replaces the best only on strictly greater
similarity, so ties keep the first-encountered candidate. -/
def findFuzzyMatch (input : String) (keywords : List String)
    (threshold : ℚ := 7/10) : Option FuzzyMatch :=
  keywords.foldl (fun bestMatch keyword =>
    let similarity := stringSimilarity input keyword
    if threshold ≤ similarity then
      match bestMatch with
      | none => some ⟨keyword, similarity⟩
      | some b =>
        if b.similarity < similarity then some ⟨keyword, similarity⟩
        else bestMatch
    else bestMatch) none

/-! ### The learned-mapping store (`db/index.ts` lines 26–31, 151–172) -/

/-- `CategoryMapping` records of the `categoryMappings` table. -/
structure CategoryMapping where
  keyword : String
  category : Category
  count : ℕ
deriving DecidableEq, Repr

/-- The `categoryMappings` table, modelled as a list of records keyed by
`keyword`. -/
abbrev Store := List CategoryMapping

/-- `keyword.toLowerCase()`. -/
def lowerStr (s : String) : String := String.mk (s.data.map lowerChar)

/-- `getCategoryMapping` (`db/index.ts` 170–172): primary-key get with the
lowercased keyword. -/
def getCategoryMapping (store : Store) (keyword : String) :
    Option CategoryMapping :=
  store.find? (fun m => m.keyword == lowerStr keyword)

/-- `setCategoryMapping` (`db/index.ts` 151–165): update category and
increment count when the lowercased keyword exists, else insert with
count 1. -/
def setCategoryMapping (store : Store) (keyword : String)
    (category : Category) : Store :=
  match store.find? (fun m => m.keyword == lowerStr keyword) with
  | some _ =>
    store.map (fun m =>
      if m.keyword == lowerStr keyword then
        { m with category := category, count := m.count + 1 }
      else m)
  | none => store ++ [⟨lowerStr keyword, category, 1⟩]

/-! ### `categorize` (`categorizer.ts` lines 203–254) -/

/-- Pass 1: learned-mapping exact lookup per word. -/
def catPass1 (store : Store) (words : List (List Char)) : Option Category :=
  words.findSome? (fun w =>
    (getCategoryMapping store (String.mk w)).map (fun m => m.category))

/-- Pass 2: static-keyword exact lookup per word. -/
def catPass2 (words : List (List Char)) : Option Category :=
  words.findSome? (fun w => defaultLookup (String.mk w))

/-- Pass 3: static-keyword substring containment per word, accepted only
when both the word and the keyword have at least three characters. -/
def catPass3 (words : List (List Char)) : Option Category :=
  words.findSome? (fun w =>
    DEFAULT_KEYWORDS.findSome? (fun e =>
      if containsSub w e.1.data || containsSub e.1.data w then
        if 3 ≤ w.length ∧ 3 ≤ e.1.data.length then some e.2 else none
      else none))

/-- Pass 4: static-keyword fuzzy match at threshold 0.7 per word, attempted
only for words of at least three characters. -/
def catPass4 (words : List (List Char)) : Option Category :=
  words.findSome? (fun w =>
    if 3 ≤ w.length then
      (findFuzzyMatch (String.mk w) (DEFAULT_KEYWORDS.map (fun e => e.1))
        (7/10)).bind (fun m => defaultLookup m.keyword)
    else none)

/-- `categorize` (`categorizer.ts` 203–254): guard on empty/whitespace-only
descriptions, then the four passes in order over the whitespace-split words
of the lowercased, trimmed description. -/
def categorize (store : Store) (description : String) : Option Category :=
  if (trimChars description.data).isEmpty then none
  else
    let words := splitWs (trimChars (description.data.map lowerChar))
    match catPass1 store words with
    | some c => some c
    | none =>
    match catPass2 words with
    | some c => some c
    | none =>
    match catPass3 words with
    | some c => some c
    | none => catPass4 words

/-- `categorizeFromDefaults` (`categorizer.ts` 294–333): identical logic
minus the learned-mapping pass. -/
def categorizeFromDefaults (description : String) : Option Category :=
  if (trimChars description.data).isEmpty then none
  else
    let words := splitWs (trimChars (description.data.map lowerChar))
    match catPass2 words with
    | some c => some c
    | none =>
    match catPass3 words with
    | some c => some c
    | none => catPass4 words

/-! ### The remote classifier (`gemini.ts`)

The network exchange is modelled by an environment record enumerating the
observable outcomes of the `fetch` call: a transport/JSON exception, or a
response with an HTTP status flag and the extracted
`candidates[0].content.parts[0].text` payload field (absent when any link of
the optional chain is missing).  A flag models whether the learned-mapping
write inside the `try` on lines 112–117 throws. -/

/-- `VALID_CATEGORIES` (`gemini.ts` 4–12), in source order. -/
def VALID_CATEGORIES : List Category :=
  [food, transport, bills, shopping, entertainment, income, other]

/-- Outcome of a completed HTTP exchange. -/
structure GeminiResponse where
  ok : Bool
  text : Option String
deriving DecidableEq, Repr

/-- Environment of one `categorizeWithGemini` call. -/
structure GeminiEnv where
  apiKey : Option String
  fetchResult : Except Unit GeminiResponse
  dbFails : Bool

/-- Truthiness of `getApiKey()` (`gemini.ts` 18–21, 55, 137): configured
means present and nonempty. -/
def hasKey (env : GeminiEnv) : Bool :=
  match env.apiKey with
  | none => false
  | some k => !k.isEmpty

/-- `parseCategory` (`gemini.ts` 27–38): lowercase and trim the reply, then
return the first category in `VALID_CATEGORIES` order that the text equals
or contains, defaulting to `other`. -/
def parseCategory (response : String) : Category :=
  let trimmed := trimChars (response.data.map lowerChar)
  (VALID_CATEGORIES.find? (fun category =>
    trimmed == (categoryName category).data ||
      containsSub trimmed (categoryName category).data)).getD other

/-- `word` starts with a digit (`/^\d/.test(word)`). -/
def startsWithDigit (w : List Char) : Bool :=
  match w with
  | [] => false
  | c :: _ => isDigitChar c

/-- `categorizeWithGemini` (`gemini.ts` 48–131): every failure mode resolves
to `other`; on success the reply is parsed and, when `saveToMappings` holds
and the category is not `other`, the first keyword of the description is
upserted into the store (a failing write is swallowed). -/
def categorizeWithGemini (env : GeminiEnv) (store : Store)
    (description : String) (saveToMappings : Bool := true) :
    Category × Store :=
  if ¬ hasKey env then (other, store)
  else
    match env.fetchResult with
    | .error _ => (other, store)
    | .ok response =>
      if ¬ response.ok then (other, store)
      else
        match response.text with
        | none => (other, store)
        | some text =>
          if text.isEmpty then (other, store)
          else
            let category := parseCategory text
            if saveToMappings && decide (category ≠ other) then
              let words := splitWs (trimChars (description.data.map lowerChar))
              match words.find? (fun w =>
                  !startsWithDigit w && decide (2 ≤ w.length)) with
              | some keyword =>
                if env.dbFails then (category, store)
                else (category, setCategoryMapping store (String.mk keyword) category)
              | none => (category, store)
            else (category, store)

/-- `isGeminiAvailable` (`gemini.ts` 136–138). -/
def isGeminiAvailable (env : GeminiEnv) : Bool := hasKey env

/-- `categorizeWithFallback` (`categorizer.ts` 270–288): local result first,
then the remote classifier when enabled and available, else `other`. -/
def categorizeWithFallback (env : GeminiEnv) (store : Store)
    (description : String) (useGemini : Bool := true) : Category × Store :=
  match categorize store description with
  | some localCategory => (localCategory, store)
  | none =>
    if useGemini && isGeminiAvailable env then
      categorizeWithGemini env store description true
    else (other, store)

/-- Classic unit-cost edit distance, head recursion. -/
def edSpec : List Char → List Char → ℕ
  | [], b => b.length
  | _ :: as, [] => as.length + 1
  | x :: a, y :: b =>
    if x = y then edSpec a b
    else 1 + min (edSpec a b) (min (edSpec (x :: a) b) (edSpec a (y :: b)))
termination_by a b => a.length + b.length
decreasing_by all_goals simp_arith

/-- The DP row with left context `A`, already-consumed (reversed) right
context `B`, and remaining right characters `ts`. -/
def rowOf (A B : List Char) : List Char → List ℕ
  | [] => [edSpec A B]
  | t :: ts => edSpec A B :: rowOf A (t :: B) ts

/-- The loop body of `findFuzzyMatch`, named for the fold lemmas. -/
def ffmStep (input : String) (threshold : ℚ) (bestMatch : Option FuzzyMatch)
    (keyword : String) : Option FuzzyMatch :=
  let similarity := stringSimilarity input keyword
  if threshold ≤ similarity then
    match bestMatch with
    | none => some ⟨keyword, similarity⟩
    | some b =>
      if b.similarity < similarity then some ⟨keyword, similarity⟩
      else bestMatch
  else bestMatch

/-! ### Generic list lemmas -/

/-- The head of the list, if any, fails the predicate. -/
abbrev headNot (p : Char → Bool) : List Char → Prop
  | [] => True
  | c :: _ => p c = false

/-- Evaluation helper: `parseInput` on concrete inputs, with the rational
comparison discharged separately from the kernel-computable string work. -/
lemma parseInput_eq_some (input : String) (sub : List Char) (q : ℚ)
    (desc : List Char)
    (h1 : (trimChars input.data).isEmpty = false)
    (h2 : extractAmountStr (trimChars input.data) = some sub)
    (h3 : parseAmount (String.mk sub) = some q)
    (h4 : ¬ q ≤ 0)
    (h5 : trimChars (stripEdgePunct (collapseWs (trimChars
            (removeFirstSub (trimChars input.data) sub)))) = desc)
    (h6 : desc.isEmpty = false) :
    parseInput input = some ⟨String.mk desc, q⟩ := by
  unfold parseInput
  simp only [h1, h2, h3, h5, h6, Bool.false_eq_true, if_false, if_neg h4]

lemma takeWhile_append_of_all (p : Char → Bool) (a b : List Char)
    (ha : ∀ c ∈ a, p c = true) :
    (a ++ b).takeWhile p = a ++ b.takeWhile p := by
  induction a with
  | nil => simp
  | cons x xs ih =>
    have hx : p x = true := ha x (by simp)
    have hrest := ih (fun c hc => ha c (by simp [hc]))
    simp [List.takeWhile_cons, hx, hrest]

lemma dropWhile_append_of_all (p : Char → Bool) (a b : List Char)
    (ha : ∀ c ∈ a, p c = true) :
    (a ++ b).dropWhile p = b.dropWhile p := by
  induction a with
  | nil => simp
  | cons x xs ih =>
    have hx : p x = true := ha x (by simp)
    simp only [List.cons_append, List.dropWhile_cons, hx]
    exact ih (fun c hc => ha c (by simp [hc]))

lemma takeWhile_eq_nil_of_headNot (p : Char → Bool) (b : List Char)
    (hb : headNot p b) : b.takeWhile p = [] := by
  cases b with
  | nil => simp
  | cons c cs => simp only [headNot] at hb; simp [List.takeWhile_cons, hb]

lemma dropWhile_eq_self_of_headNot (p : Char → Bool) (b : List Char)
    (hb : headNot p b) : b.dropWhile p = b := by
  cases b with
  | nil => simp
  | cons c cs => simp only [headNot] at hb; simp [List.dropWhile_cons, hb]

lemma takeWhile_run (p : Char → Bool) (a b : List Char)
    (ha : ∀ c ∈ a, p c = true) (hb : headNot p b) :
    (a ++ b).takeWhile p = a := by
  rw [takeWhile_append_of_all p a b ha, takeWhile_eq_nil_of_headNot p b hb,
    List.append_nil]

lemma dropWhile_run (p : Char → Bool) (a b : List Char)
    (ha : ∀ c ∈ a, p c = true) (hb : headNot p b) :
    (a ++ b).dropWhile p = b := by
  rw [dropWhile_append_of_all p a b ha, dropWhile_eq_self_of_headNot p b hb]

lemma dropWhile_eq_nil_of_all (p : Char → Bool) (l : List Char)
    (h : ∀ c ∈ l, p c = true) : l.dropWhile p = [] := by
  induction l with
  | nil => simp
  | cons c cs ih =>
    have hc : p c = true := h c (by simp)
    simp only [List.dropWhile_cons, hc, if_true]
    exact ih (fun x hx => h x (by simp [hx]))

lemma headNot_dropWhile (p : Char → Bool) (l : List Char) :
    headNot p (l.dropWhile p) := by
  induction l with
  | nil => simp [headNot]
  | cons c cs ih =>
    by_cases hc : p c
    · simpa [List.dropWhile_cons, hc] using ih
    · simp only [List.dropWhile_cons, hc]
      simpa [headNot] using hc

lemma dropWhile_suffix_decomp (p : Char → Bool) (l : List Char) :
    ∃ t, l = t ++ l.dropWhile p := by
  induction l with
  | nil => exact ⟨[], rfl⟩
  | cons c cs ih =>
    by_cases hc : p c
    · obtain ⟨t, ht⟩ := ih
      exact ⟨c :: t, by simp [List.dropWhile_cons, hc, ← ht]⟩
    · exact ⟨[], by simp [List.dropWhile_cons, hc]⟩

lemma headNot_of_prefix (p : Char → Bool) (l c t : List Char)
    (hl : l = c ++ t) (h : headNot p l) : headNot p c := by
  cases c with
  | nil => simp [headNot]
  | cons x xs => subst hl; simpa [headNot] using h

lemma mem_dropWhile_of_not (p : Char → Bool) (l : List Char) (c : Char)
    (hc : c ∈ l) (hp : p c = false) : c ∈ l.dropWhile p := by
  induction l with
  | nil => cases hc
  | cons x xs ih =>
    by_cases hx : p x
    · rcases List.mem_cons.mp hc with h | h
      · subst h; simp [hx] at hp
      · simpa [List.dropWhile_cons, hx] using ih h
    · simpa [List.dropWhile_cons, hx] using hc

/-! ### `trimChars` structural lemmas -/

lemma trimChars_eq_self (l : List Char) (h1 : headNot isSpaceChar l)
    (h2 : headNot isSpaceChar l.reverse) : trimChars l = l := by
  unfold trimChars
  rw [dropWhile_eq_self_of_headNot _ _ h1,
    dropWhile_eq_self_of_headNot _ _ h2, List.reverse_reverse]

lemma trimChars_eq_nil_of_all (l : List Char)
    (h : ∀ c ∈ l, isSpaceChar c = true) : trimChars l = [] := by
  unfold trimChars
  rw [dropWhile_eq_nil_of_all _ _ h]
  simp

lemma headNot_trimChars (l : List Char) : headNot isSpaceChar (trimChars l) := by
  unfold trimChars
  obtain ⟨t, ht⟩ := dropWhile_suffix_decomp isSpaceChar (l.dropWhile isSpaceChar).reverse
  have hrev : l.dropWhile isSpaceChar =
      ((l.dropWhile isSpaceChar).reverse.dropWhile isSpaceChar).reverse ++ t.reverse := by
    have := congrArg List.reverse ht
    simpa using this
  exact headNot_of_prefix _ _ _ _ hrev (headNot_dropWhile isSpaceChar l)

lemma headNot_reverse_trimChars (l : List Char) :
    headNot isSpaceChar (trimChars l).reverse := by
  unfold trimChars
  rw [List.reverse_reverse]
  exact headNot_dropWhile _ _

lemma trimChars_idem (l : List Char) : trimChars (trimChars l) = trimChars l :=
  trimChars_eq_self _ (headNot_trimChars l) (headNot_reverse_trimChars l)

lemma mem_trimChars (l : List Char) (c : Char) (hc : c ∈ l)
    (hns : isSpaceChar c = false) : c ∈ trimChars l := by
  unfold trimChars
  rw [List.mem_reverse]
  apply mem_dropWhile_of_not _ _ _ _ hns
  rw [List.mem_reverse]
  exact mem_dropWhile_of_not _ _ _ hc hns

/-- Decomposition of a successful `findSome?`: the first element producing a
hit, with everything before it failing. -/
lemma findSome?_eq_some_decomp {α β : Type} (l : List α) (f : α → Option β)
    (b : β) (h : l.findSome? f = some b) :
    ∃ l1 a l2, l = l1 ++ a :: l2 ∧ f a = some b ∧ ∀ x ∈ l1, f x = none := by
  induction l with
  | nil => simp [List.findSome?] at h
  | cons x xs ih =>
    rw [List.findSome?_cons] at h
    cases hx : f x with
    | some v =>
      rw [hx] at h
      exact ⟨[], x, xs, by simp, by simp at h; rw [hx, h], by simp⟩
    | none =>
      rw [hx] at h
      obtain ⟨l1, a, l2, hdec, ha, hnone⟩ := ih h
      exact ⟨x :: l1, a, l2, by simp [hdec], ha,
        fun y hy => by
          rcases List.mem_cons.mp hy with h' | h'
          · subst h'; exact hx
          · exact hnone y h'⟩

/-- Decomposition of a successful `find?`. -/
lemma find?_eq_some_decomp {α : Type} (l : List α) (p : α → Bool) (a : α)
    (h : l.find? p = some a) :
    ∃ l1 l2, l = l1 ++ a :: l2 ∧ p a = true ∧ ∀ x ∈ l1, p x = false := by
  induction l with
  | nil => simp [List.find?] at h
  | cons x xs ih =>
    by_cases hx : p x
    · rw [List.find?_cons_of_pos _ hx] at h
      injection h with hxa
      subst hxa
      exact ⟨[], xs, by simp, hx, by simp⟩
    · rw [List.find?_cons_of_neg _ (by simpa using hx)] at h
      obtain ⟨l1, l2, hdec, ha, hnone⟩ := ih h
      exact ⟨x :: l1, l2, by simp [hdec], ha,
        fun y hy => by
          rcases List.mem_cons.mp hy with h' | h'
          · subst h'; simpa using hx
          · exact hnone y h'⟩

/-! ### Claim C10 -/

/-- C10: for every empty or whitespace-only description, both `categorize`
and `categorizeFromDefaults` return `none` immediately — for every state of
the learned-mapping store, without any keyword tier being consulted. -/
theorem categorize_blank_returns_none (store : Store) (d : String)
    (h : ∀ c ∈ d.data, isSpaceChar c = true) :
    categorize store d = none ∧ categorizeFromDefaults d = none := by
  have ht : trimChars d.data = [] := trimChars_eq_nil_of_all _ h
  constructor
  · unfold categorize
    rw [ht]
    simp
  · unfold categorizeFromDefaults
    rw [ht]
    simp

/-- Witness for C10 at the whitespace-only description `"  "` and a
nonempty store. -/
theorem categorize_blank_returns_none_witness :
    categorize [⟨"bakso", Category.entertainment, 1⟩] "  " = none ∧
      categorizeFromDefaults "  " = none :=
  categorize_blank_returns_none [⟨"bakso", Category.entertainment, 1⟩] "  "
    (by decide)

/-! ### Claim C3 -/

/-- C3: `categorizeWithFallback` returns the local `categorize` result when
one exists, otherwise defers to the remote classifier exactly when
`useGemini` holds and a key is configured, and otherwise returns `other`;
and `categorizeWithGemini` (whose return type is a `Category`, so it never
fails) collapses every failure mode — missing key, transport/JSON exception,
non-success HTTP status, missing payload field, empty reply — to `other`. -/
theorem categorizeWithFallback_never_none :
    (∀ (env : GeminiEnv) (store : Store) (d : String) (u : Bool) (c : Category),
       categorize store d = some c →
       categorizeWithFallback env store d u = (c, store))
  ∧ (∀ (env : GeminiEnv) (store : Store) (d : String),
       categorize store d = none → isGeminiAvailable env = true →
       categorizeWithFallback env store d true = categorizeWithGemini env store d true)
  ∧ (∀ (env : GeminiEnv) (store : Store) (d : String) (u : Bool),
       categorize store d = none → (u && isGeminiAvailable env) = false →
       categorizeWithFallback env store d u = (Category.other, store))
  ∧ (∀ (env : GeminiEnv) (store : Store) (d : String) (sv : Bool),
       (hasKey env = false →
          categorizeWithGemini env store d sv = (Category.other, store))
     ∧ (∀ e : Unit, env.fetchResult = .error e →
          categorizeWithGemini env store d sv = (Category.other, store))
     ∧ (∀ r : GeminiResponse, env.fetchResult = .ok r → r.ok = false →
          categorizeWithGemini env store d sv = (Category.other, store))
     ∧ (∀ r : GeminiResponse, env.fetchResult = .ok r → r.text = none →
          categorizeWithGemini env store d sv = (Category.other, store))
     ∧ (∀ r : GeminiResponse, env.fetchResult = .ok r → r.text = some "" →
          categorizeWithGemini env store d sv = (Category.other, store))) := by
  refine ⟨?_, ?_, ?_, ?_⟩
  · intro env store d u c h
    unfold categorizeWithFallback
    rw [h]
  · intro env store d h hk
    unfold categorizeWithFallback
    rw [h]
    simp [isGeminiAvailable] at hk ⊢
    simp [hk]
  · intro env store d u h hk
    unfold categorizeWithFallback
    rw [h]
    simp only [hk, Bool.false_eq_true, if_false]
  · intro env store d sv
    refine ⟨?_, ?_, ?_, ?_, ?_⟩
    · intro h
      unfold categorizeWithGemini
      simp [h]
    · intro e h
      unfold categorizeWithGemini
      by_cases hk : hasKey env <;> simp [hk, h]
    · intro r h hr
      unfold categorizeWithGemini
      by_cases hk : hasKey env <;> simp [hk, h, hr]
    · intro r h hr
      unfold categorizeWithGemini
      by_cases hk : hasKey env <;> simp [hk, h, hr]
    · intro r h hr
      unfold categorizeWithGemini
      by_cases hk : hasKey env <;> simp [hk, h, hr, String.isEmpty]

/-- Witness for C3: a known local word bypasses the remote classifier, and
with no key configured the remote classifier itself returns `other`. -/
theorem categorizeWithFallback_never_none_witness :
    categorizeWithFallback ⟨none, .error (), false⟩ [] "bakso" true =
        (Category.food, [])
    ∧ categorizeWithGemini ⟨none, .error (), false⟩ [] "zz" true =
        (Category.other, [])
    ∧ categorizeWithFallback ⟨none, .error (), false⟩ [] "zz" false =
        (Category.other, []) := by
  refine ⟨?_, ?_, ?_⟩
  · exact categorizeWithFallback_never_none.1 ⟨none, .error (), false⟩ [] "bakso"
      true Category.food (by decide)
  · exact (categorizeWithFallback_never_none.2.2.2 ⟨none, .error (), false⟩ []
      "zz" true).1 (by decide)
  · exact categorizeWithFallback_never_none.2.2.1 ⟨none, .error (), false⟩ []
      "zz" false (by decide) (by decide)

/-! ### Claim C2 -/

/-- C2: `categorize` lowercases, trims and whitespace-splits the
description, then runs the four passes (`catPass1`–`catPass4`, each a full
pass over the whole word list) in order, returning the first hit of the
earliest pass and `none` when all four fail; in particular a learned mapping
always beats the static table: a store that maps `"bakso"` to
`entertainment` wins over the static `bakso ↦ food` entry. -/
theorem categorize_pass_order :
    (∀ (store : Store) (d : String),
       (trimChars d.data).isEmpty = false →
       (∀ c, catPass1 store (splitWs (trimChars (d.data.map lowerChar))) = some c →
          categorize store d = some c)
     ∧ (catPass1 store (splitWs (trimChars (d.data.map lowerChar))) = none →
        ∀ c, catPass2 (splitWs (trimChars (d.data.map lowerChar))) = some c →
          categorize store d = some c)
     ∧ (catPass1 store (splitWs (trimChars (d.data.map lowerChar))) = none →
        catPass2 (splitWs (trimChars (d.data.map lowerChar))) = none →
        ∀ c, catPass3 (splitWs (trimChars (d.data.map lowerChar))) = some c →
          categorize store d = some c)
     ∧ (catPass1 store (splitWs (trimChars (d.data.map lowerChar))) = none →
        catPass2 (splitWs (trimChars (d.data.map lowerChar))) = none →
        catPass3 (splitWs (trimChars (d.data.map lowerChar))) = none →
          categorize store d = catPass4 (splitWs (trimChars (d.data.map lowerChar)))))
  ∧ (∀ (store : Store) (m : CategoryMapping),
       getCategoryMapping store "bakso" = some m →
       m.category = Category.entertainment →
       categorize store "bakso" = some Category.entertainment)
  ∧ defaultLookup "bakso" = some Category.food
  ∧ categorize [] "bakso" = some Category.food := by
  refine ⟨?_, ?_, by decide, by decide⟩
  · intro store d hne
    refine ⟨?_, ?_, ?_, ?_⟩
    · intro c h1
      simp only [categorize, hne, Bool.false_eq_true, if_false, h1]
    · intro h1 c h2
      simp only [categorize, hne, Bool.false_eq_true, if_false, h1, h2]
    · intro h1 h2 c h3
      simp only [categorize, hne, Bool.false_eq_true, if_false, h1, h2, h3]
    · intro h1 h2 h3
      simp only [categorize, hne, Bool.false_eq_true, if_false, h1, h2, h3]
  · intro store m hm hcat
    have hw : splitWs (trimChars (("bakso" : String).data.map lowerChar)) =
        [['b', 'a', 'k', 's', 'o']] := by decide
    have h1 : catPass1 store (splitWs (trimChars (("bakso" : String).data.map lowerChar))) =
        some Category.entertainment := by
      rw [hw]
      unfold catPass1
      rw [List.findSome?_cons,
        show String.mk ['b', 'a', 'k', 's', 'o'] = "bakso" from rfl, hm]
      simp [hcat]
    simp only [categorize, show (trimChars ("bakso" : String).data).isEmpty = false
      from by decide, Bool.false_eq_true, if_false, h1]

/-- Witness for C2: a store in which `"bakso"` was learned as
`entertainment` overrides the static table. -/
theorem categorize_pass_order_witness :
    categorize [⟨"bakso", Category.entertainment, 2⟩] "bakso" =
      some Category.entertainment :=
  categorize_pass_order.2.1 [⟨"bakso", Category.entertainment, 2⟩]
    ⟨"bakso", Category.entertainment, 2⟩ (by decide) rfl

/-! ### Claim C8 -/

lemma find?_congr_pred {α : Type} (l : List α) (p q : α → Bool)
    (h : ∀ x, p x = q x) : l.find? p = l.find? q := by
  induction l with
  | nil => simp
  | cons x xs ih => simp [List.find?_cons, h x, ih]

lemma startsWith_refl (l : List Char) : startsWith l l = true := by
  induction l with
  | nil => rfl
  | cons c cs ih => simp [startsWith, ih]

lemma containsSub_self (l : List Char) : containsSub l l = true := by
  unfold containsSub
  rw [List.any_eq_true]
  exact ⟨0, by simp [List.mem_range], by simpa using startsWith_refl l⟩

/-- C8: remote-reply parsing lowercases and trims the reply and returns the
first category of the fixed enumeration order that the text contains (the
equality test of the source is subsumed by containment), with `other` when
no category name occurs. -/
theorem parseCategory_first_containment :
    VALID_CATEGORIES = [Category.food, Category.transport, Category.bills,
      Category.shopping, Category.entertainment, Category.income,
      Category.other]
  ∧ (∀ s : String, parseCategory s =
       (VALID_CATEGORIES.find? (fun c =>
          containsSub (trimChars (s.data.map lowerChar))
            (categoryName c).data)).getD Category.other)
  ∧ (∀ s : String,
       (∀ c ∈ VALID_CATEGORIES,
          containsSub (trimChars (s.data.map lowerChar))
            (categoryName c).data = false) →
       parseCategory s = Category.other)
  ∧ parseCategory "i think food or transport" = Category.food
  ∧ parseCategory " FOOD " = Category.food
  ∧ parseCategory "bills and shopping" = Category.bills
  ∧ parseCategory "unclassifiable nonsense" = Category.other := by
  refine ⟨rfl, ?_, ?_, by decide, by decide, by decide, by decide⟩
  · intro s
    simp only [parseCategory]
    congr 1
    apply find?_congr_pred
    intro c
    cases hb : (trimChars (s.data.map lowerChar) == (categoryName c).data) with
    | false => simp [hb]
    | true =>
      have := (beq_iff_eq (a := trimChars (s.data.map lowerChar))
        (b := (categoryName c).data)).mp hb
      simp [hb, this, containsSub_self]
  · intro s h
    simp only [parseCategory]
    rw [List.find?_eq_none.mpr]
    · rfl
    · intro c hc
      have hcontain := h c hc
      simp only [Bool.or_eq_true, not_or]
      constructor
      · intro hb
        have heq := (beq_iff_eq (a := trimChars (s.data.map lowerChar))
          (b := (categoryName c).data)).mp hb
        rw [heq] at hcontain
        rw [containsSub_self] at hcontain
        cases hcontain
      · simp [hcontain]

/-- Witness for C8: the no-containment hypothesis discharged at a concrete
reply. -/
theorem parseCategory_first_containment_witness :
    parseCategory "zzz" = Category.other :=
  parseCategory_first_containment.2.2.1 "zzz" (by decide)

/-! ### Claim C7 -/

lemma find?_append_none {α : Type} (l₁ l₂ : List α) (p : α → Bool)
    (h : l₁.find? p = none) : (l₁ ++ l₂).find? p = l₂.find? p := by
  induction l₁ with
  | nil => simp
  | cons x xs ih =>
    by_cases hx : p x
    · rw [List.find?_cons_of_pos _ hx] at h
      exact absurd h (by simp)
    · rw [List.find?_cons_of_neg _ (by simpa using hx)] at h
      rw [List.cons_append, List.find?_cons_of_neg _ (by simpa using hx)]
      exact ih h

/-- Upsert, fresh-key case: a keyword absent from the store is created with
count 1 under its lowercased key. -/
lemma setCategoryMapping_new (store : Store) (k : String) (cat : Category)
    (h : getCategoryMapping store k = none) :
    getCategoryMapping (setCategoryMapping store k cat) k =
      some ⟨lowerStr k, cat, 1⟩ := by
  unfold getCategoryMapping at h ⊢
  unfold setCategoryMapping
  rw [h, find?_append_none _ _ _ h]
  simp [List.find?_cons]

/-- Upsert, existing-key case: the category is overwritten and the count
incremented. -/
lemma setCategoryMapping_existing (store : Store) (k : String)
    (cat : Category) (m : CategoryMapping)
    (h : getCategoryMapping store k = some m) :
    getCategoryMapping (setCategoryMapping store k cat) k =
      some ⟨m.keyword, cat, m.count + 1⟩ := by
  unfold getCategoryMapping at h ⊢
  unfold setCategoryMapping
  rw [h, List.find?_map]
  have hcomp : ∀ x : CategoryMapping,
      ((fun y : CategoryMapping => y.keyword == lowerStr k) ∘
        (fun y : CategoryMapping => if y.keyword == lowerStr k then
          { y with category := cat, count := y.count + 1 } else y)) x =
      (x.keyword == lowerStr k) := by
    intro x
    by_cases hx : x.keyword = lowerStr k <;> simp [Function.comp, hx]
  rw [find?_congr_pred _ _ _ hcomp, h]
  have hm : m.keyword = lowerStr k := by
    have := List.find?_some h
    simpa using this
  simp [hm]

/-- C7: when the remote call succeeds with `saveToMappings` and a category
other than `other`, the first whitespace-delimited token of the lowercased
description that does not start with a digit and has length ≥ 2 is upserted
into the store (created with count 1, or category overwritten and count
incremented); a failing write is swallowed and the category still
returned. -/
theorem gemini_learning_side_effect (env : GeminiEnv) (store : Store)
    (d : String) (r : GeminiResponse) (t : String) (c : Category)
    (kw : List Char)
    (hk : hasKey env = true)
    (hf : env.fetchResult = .ok r)
    (hok : r.ok = true)
    (ht : r.text = some t)
    (hne : t.isEmpty = false)
    (hc : parseCategory t = c)
    (hco : c ≠ Category.other)
    (hkw : (splitWs (trimChars (d.data.map lowerChar))).find?
        (fun w => !startsWithDigit w && decide (2 ≤ w.length)) = some kw) :
    (env.dbFails = false →
       categorizeWithGemini env store d true =
         (c, setCategoryMapping store (String.mk kw) c))
  ∧ (env.dbFails = true →
       categorizeWithGemini env store d true = (c, store))
  ∧ (getCategoryMapping store (String.mk kw) = none →
       getCategoryMapping (setCategoryMapping store (String.mk kw) c)
         (String.mk kw) = some ⟨lowerStr (String.mk kw), c, 1⟩)
  ∧ (∀ m, getCategoryMapping store (String.mk kw) = some m →
       getCategoryMapping (setCategoryMapping store (String.mk kw) c)
         (String.mk kw) = some ⟨m.keyword, c, m.count + 1⟩) := by
  refine ⟨?_, ?_,
    fun h => setCategoryMapping_new store (String.mk kw) c h,
    fun m h => setCategoryMapping_existing store (String.mk kw) c m h⟩
  · intro hdb
    simp only [categorizeWithGemini, hk, hf, hok, ht, hne, hc, hkw, hdb,
      decide_eq_true hco]
    simp
  · intro hdb
    simp only [categorizeWithGemini, hk, hf, hok, ht, hne, hc, hkw, hdb,
      decide_eq_true hco]
    simp

/-- Witness for C7: a successful `transport` classification of
`"gojek 15rb"` learns the keyword `gojek` with count 1. -/
theorem gemini_learning_side_effect_witness :
    categorizeWithGemini ⟨some "key", .ok ⟨true, some "transport"⟩, false⟩ []
        "gojek 15rb" true =
      (Category.transport, setCategoryMapping [] (String.mk ['g', 'o', 'j', 'e', 'k'])
        Category.transport)
    ∧ setCategoryMapping [] (String.mk ['g', 'o', 'j', 'e', 'k'])
        Category.transport = [⟨"gojek", Category.transport, 1⟩] := by
  constructor
  · exact (gemini_learning_side_effect
      ⟨some "key", .ok ⟨true, some "transport"⟩, false⟩ [] "gojek 15rb"
      ⟨true, some "transport"⟩ "transport" Category.transport
      ['g', 'o', 'j', 'e', 'k'] (by decide) rfl rfl rfl (by decide) (by decide)
      (by decide) (by decide)).1 rfl
  · decide

/-! ### Claim C6: edit-distance machinery

`edSpec` is the textbook recursive edit distance on head characters.  The
source's dynamic-programming table indexes prefixes by their last
characters, so row `i` of the table lists the distances between the
*reversal* of the consumed prefix of `str1` and the reversals of the
prefixes of `str2`; `rowOf A B ts` is that row (`A` the reversed consumed
part of `str1`, `B` the reversed consumed part of `str2`, `ts` the rest of
`str2`). -/

lemma rowOf_cons (A B : List Char) (ts : List Char) :
    rowOf A B ts = edSpec A B :: (rowOf A B ts).tail := by
  cases ts <;> rfl

lemma rowOf_headD (A B : List Char) (ts : List Char) :
    (rowOf A B ts).headD 0 = edSpec A B := by
  cases ts <;> rfl

lemma levRowAux_rowOf (c1 : Char) (A : List Char) :
    ∀ (ts B : List Char),
      levRowAux c1 ts (rowOf A B ts) (edSpec (c1 :: A) B) =
        (rowOf (c1 :: A) B ts).tail := by
  intro ts
  induction ts with
  | nil => intro B; rfl
  | cons t ts ih =>
    intro B
    show levRowAux c1 (t :: ts) (edSpec A B :: rowOf A (t :: B) ts)
      (edSpec (c1 :: A) B) = _
    rw [levRowAux]
    rw [rowOf_headD]
    have hcur : (if c1 = t then edSpec A B
        else 1 + min (edSpec A (t :: B))
          (min (edSpec (c1 :: A) B) (edSpec A B))) = edSpec (c1 :: A) (t :: B) := by
      rw [edSpec]
      by_cases hxy : c1 = t
      · simp [hxy]
      · simp only [hxy, if_false]
        omega
    rw [hcur, ih (t :: B)]
    conv_rhs => rw [rowOf]
    simp only [List.tail_cons]
    exact (rowOf_cons _ _ _).symm

lemma levRows_rowOf (s2 : List Char) :
    ∀ (s1 A : List Char),
      levRows s2 s1 (rowOf A [] s2) (A.length + 1) =
        rowOf (s1.reverse ++ A) [] s2 := by
  intro s1
  induction s1 with
  | nil => intro A; simp [levRows]
  | cons c s1' ih =>
    intro A
    rw [levRows]
    have h1 : edSpec (c :: A) [] = A.length + 1 := by rw [edSpec]
    have h2 := levRowAux_rowOf c A s2 []
    rw [h1] at h2
    rw [h2]
    have h3 : (A.length + 1) :: (rowOf (c :: A) [] s2).tail = rowOf (c :: A) [] s2 := by
      conv_rhs => rw [rowOf_cons]
      rw [h1]
    rw [h3]
    have h4 := ih (c :: A)
    simp only [List.length_cons] at h4
    rw [h4]
    simp [List.append_assoc]

lemma rowOf_nil_left :
    ∀ (ts B : List Char),
      rowOf [] B ts = (List.range (ts.length + 1)).map (fun j => B.length + j) := by
  intro ts
  induction ts with
  | nil =>
    intro B
    have he : edSpec [] B = B.length := by rw [edSpec]
    simp [rowOf, he, List.range_succ]
  | cons t ts ih =>
    intro B
    rw [rowOf, ih (t :: B)]
    have he : edSpec [] B = B.length := by rw [edSpec]
    rw [he]
    simp only [List.length_cons]
    conv_rhs => rw [List.range_succ_eq_map]
    simp only [List.map_cons, List.map_map, Nat.add_zero]
    congr 1
    apply List.map_congr_left
    intro j _
    simp only [Function.comp_apply]
    omega

lemma rowOf_getD_last (A : List Char) :
    ∀ (ts B : List Char),
      (rowOf A B ts).getD ts.length 0 = edSpec A (ts.reverse ++ B) := by
  intro ts
  induction ts with
  | nil => intro B; simp [rowOf]
  | cons t ts ih =>
    intro B
    rw [rowOf]
    simp only [List.length_cons, List.getD_cons_succ]
    rw [ih (t :: B)]
    simp [List.append_assoc]

/-- The source's DP table computes `edSpec` on the reversed strings. -/
lemma levenshteinDistance_eq_edSpec (a b : String) :
    levenshteinDistance a b = edSpec a.data.reverse b.data.reverse := by
  simp only [levenshteinDistance]
  have h0 : List.range (b.data.length + 1) = rowOf [] [] b.data := by
    rw [rowOf_nil_left]
    simp
  rw [h0]
  have h1 := levRows_rowOf b.data a.data []
  simp only [List.length_nil, Nat.zero_add, List.append_nil] at h1
  rw [h1, rowOf_getD_last]
  simp

lemma edSpec_self : ∀ l : List Char, edSpec l l = 0 := by
  intro l
  induction l with
  | nil => rw [edSpec]; rfl
  | cons x xs ih => rw [edSpec]; simp [ih]

lemma edSpec_le_max : ∀ a b : List Char, edSpec a b ≤ max a.length b.length := by
  intro a
  induction a with
  | nil => intro b; rw [edSpec]; simp
  | cons x as ih =>
    intro b
    cases b with
    | nil => rw [edSpec]; simp
    | cons y bs =>
      have hle := ih bs
      rw [edSpec]
      by_cases hxy : x = y
      · simp only [hxy, if_true]
        simp only [List.length_cons]
        omega
      · simp only [hxy, if_false]
        simp only [List.length_cons]
        omega

lemma levenshteinDistance_self (s : String) : levenshteinDistance s s = 0 := by
  rw [levenshteinDistance_eq_edSpec]
  exact edSpec_self _

lemma levenshteinDistance_le_max (a b : String) :
    levenshteinDistance a b ≤ max a.length b.length := by
  rw [levenshteinDistance_eq_edSpec]
  have h := edSpec_le_max a.data.reverse b.data.reverse
  rw [List.length_reverse, List.length_reverse] at h
  exact h

lemma stringSimilarity_self (s : String) : stringSimilarity s s = 1 := by
  simp only [stringSimilarity]
  by_cases h : max s.length s.length = 0
  · rw [if_pos h]
  · rw [if_neg h, levenshteinDistance_self]
    simp only [Nat.cast_zero, zero_div, sub_zero]

lemma stringSimilarity_bounds (a b : String) :
    0 ≤ stringSimilarity a b ∧ stringSimilarity a b ≤ 1 := by
  simp only [stringSimilarity]
  by_cases h : max a.length b.length = 0
  · rw [if_pos h]
    norm_num
  · rw [if_neg h]
    have hmax : 0 < max a.length b.length := Nat.pos_of_ne_zero h
    have hpos : (0 : ℚ) < ((max a.length b.length : ℕ) : ℚ) := by
      exact_mod_cast hmax
    have hd : ((levenshteinDistance a b : ℕ) : ℚ) ≤ ((max a.length b.length : ℕ) : ℚ) := by
      exact_mod_cast levenshteinDistance_le_max a b
    have hdiv1 : ((levenshteinDistance a b : ℕ) : ℚ) / ((max a.length b.length : ℕ) : ℚ) ≤ 1 :=
      (div_le_one hpos).mpr hd
    have hdiv0 : 0 ≤ ((levenshteinDistance a b : ℕ) : ℚ) / ((max a.length b.length : ℕ) : ℚ) := by
      positivity
    constructor <;> linarith

lemma findFuzzyMatch_eq_foldl (inp : String) (cs : List String) (t : ℚ) :
    findFuzzyMatch inp cs t = cs.foldl (ffmStep inp t) none := rfl

lemma ffmStep_none_iff (inp : String) (t : ℚ) (acc : Option FuzzyMatch)
    (kw : String) :
    ffmStep inp t acc kw = none ↔
      acc = none ∧ stringSimilarity inp kw < t := by
  unfold ffmStep
  by_cases h : t ≤ stringSimilarity inp kw
  · cases acc with
    | none => simp [h, not_lt.mpr h]
    | some b =>
      by_cases hb : b.similarity < stringSimilarity inp kw <;>
        simp [h, hb, not_lt.mpr h]
  · simp [h, not_le.mp h]

lemma ffmStep_none_arg (inp : String) (t : ℚ) (kw : String) :
    ffmStep inp t none kw =
      if t ≤ stringSimilarity inp kw then
        some ⟨kw, stringSimilarity inp kw⟩
      else none := by
  unfold ffmStep
  by_cases h : t ≤ stringSimilarity inp kw <;> simp [h]

lemma ffmStep_some_arg (inp : String) (t : ℚ) (b : FuzzyMatch) (kw : String) :
    ffmStep inp t (some b) kw =
      if t ≤ stringSimilarity inp kw ∧ b.similarity < stringSimilarity inp kw
      then some ⟨kw, stringSimilarity inp kw⟩
      else some b := by
  unfold ffmStep
  by_cases h : t ≤ stringSimilarity inp kw
  · by_cases hb : b.similarity < stringSimilarity inp kw <;> simp [h, hb]
  · simp [h, fun hand : _ ∧ _ => h hand.1]

lemma foldl_ffm_none (inp : String) (t : ℚ) :
    ∀ (cs : List String) (acc : Option FuzzyMatch),
      cs.foldl (ffmStep inp t) acc = none ↔
        acc = none ∧ ∀ c ∈ cs, stringSimilarity inp c < t := by
  intro cs
  induction cs with
  | nil => intro acc; simp
  | cons c cs ih =>
    intro acc
    rw [List.foldl_cons, ih, ffmStep_none_iff]
    constructor
    · rintro ⟨⟨h1, h2⟩, h3⟩
      refine ⟨h1, fun x hx => ?_⟩
      rcases List.mem_cons.mp hx with rfl | hx
      · exact h2
      · exact h3 x hx
    · rintro ⟨h1, h2⟩
      exact ⟨⟨h1, h2 c (by simp)⟩, fun x hx => h2 x (by simp [hx])⟩

lemma foldl_ffm_some_val (inp : String) (t : ℚ) :
    ∀ (cs : List String) (acc : Option FuzzyMatch) (r : FuzzyMatch),
      (∀ b, acc = some b →
        b.similarity = stringSimilarity inp b.keyword ∧ t ≤ b.similarity) →
      cs.foldl (ffmStep inp t) acc = some r →
      r.similarity = stringSimilarity inp r.keyword ∧ t ≤ r.similarity := by
  intro cs
  induction cs with
  | nil =>
    intro acc r hacc h
    exact hacc r (by simpa using h)
  | cons c cs ih =>
    intro acc r hacc h
    rw [List.foldl_cons] at h
    refine ih _ r ?_ h
    intro b hb
    cases acc with
    | none =>
      rw [ffmStep_none_arg] at hb
      by_cases hc : t ≤ stringSimilarity inp c
      · rw [if_pos hc] at hb
        injection hb with hb'
        subst hb'
        exact ⟨rfl, hc⟩
      · rw [if_neg hc] at hb
        cases hb
    | some b0 =>
      rw [ffmStep_some_arg] at hb
      by_cases hcond : t ≤ stringSimilarity inp c ∧
          b0.similarity < stringSimilarity inp c
      · rw [if_pos hcond] at hb
        injection hb with hb'
        subst hb'
        exact ⟨rfl, hcond.1⟩
      · rw [if_neg hcond] at hb
        injection hb with hb'
        subst hb'
        exact hacc _ rfl

lemma foldl_ffm_some_max (inp : String) (t : ℚ) :
    ∀ (cs : List String) (acc : Option FuzzyMatch) (r : FuzzyMatch),
      cs.foldl (ffmStep inp t) acc = some r →
      (∀ b, acc = some b → b.similarity ≤ r.similarity) ∧
      (∀ c ∈ cs, t ≤ stringSimilarity inp c →
        stringSimilarity inp c ≤ r.similarity) := by
  intro cs
  induction cs with
  | nil =>
    intro acc r h
    refine ⟨fun b hb => ?_, by simp⟩
    simp only [List.foldl_nil] at h
    rw [hb] at h
    injection h with h'
    rw [h']
  | cons c cs ih =>
    intro acc r h
    rw [List.foldl_cons] at h
    obtain ⟨ihb, ihc⟩ := ih (ffmStep inp t acc c) r h
    have hstep : ∀ b, acc = some b → b.similarity ≤ r.similarity := by
      intro b hb
      subst hb
      rw [ffmStep_some_arg] at ihb
      by_cases hcond : t ≤ stringSimilarity inp c ∧
          b.similarity < stringSimilarity inp c
      · have := ihb ⟨c, stringSimilarity inp c⟩ (by rw [if_pos hcond])
        simp only at this
        exact le_of_lt (lt_of_lt_of_le hcond.2 this)
      · exact ihb b (by rw [if_neg hcond])
    refine ⟨hstep, fun x hx hxt => ?_⟩
    rcases List.mem_cons.mp hx with rfl | hx
    · cases acc with
      | none =>
        rw [ffmStep_none_arg] at ihb
        have := ihb ⟨x, stringSimilarity inp x⟩ (by rw [if_pos hxt])
        simpa using this
      | some b0 =>
        rw [ffmStep_some_arg] at ihb
        by_cases hlt : b0.similarity < stringSimilarity inp x
        · have := ihb ⟨x, stringSimilarity inp x⟩ (by rw [if_pos ⟨hxt, hlt⟩])
          simpa using this
        · have := ihb b0 (by rw [if_neg (fun hand => hlt hand.2)])
          exact le_trans (not_lt.mp hlt) this
    · exact ihc x hx hxt

lemma foldl_ffm_from_some (inp : String) (t : ℚ) :
    ∀ (cs : List String) (b r : FuzzyMatch),
      cs.foldl (ffmStep inp t) (some b) = some r →
      r = b ∨ (b.similarity < r.similarity ∧ t ≤ r.similarity ∧
        r.similarity = stringSimilarity inp r.keyword ∧
        ∃ pre post, cs = pre ++ r.keyword :: post ∧
          ∀ c ∈ pre, stringSimilarity inp c < r.similarity) := by
  intro cs
  induction cs with
  | nil =>
    intro b r h
    simp only [List.foldl_nil] at h
    injection h with h'
    exact Or.inl h'.symm
  | cons c cs ih =>
    intro b r h
    rw [List.foldl_cons] at h
    by_cases hc : t ≤ stringSimilarity inp c
    · by_cases hlt : b.similarity < stringSimilarity inp c
      · have hstep : ffmStep inp t (some b) c = some ⟨c, stringSimilarity inp c⟩ := by
          unfold ffmStep
          simp [hc, hlt]
        rw [hstep] at h
        rcases ih ⟨c, stringSimilarity inp c⟩ r h with rfl | hrec
        · exact Or.inr ⟨hlt, hc, rfl, [], cs, rfl, by simp⟩
        · obtain ⟨h1, h2, h3, pre, post, hdec, hpre⟩ := hrec
          simp only at h1
          refine Or.inr ⟨lt_trans hlt h1, h2, h3, c :: pre, post, by simp [hdec], ?_⟩
          intro x hx
          rcases List.mem_cons.mp hx with rfl | hx
          · exact h1
          · exact hpre x hx
      · have hstep : ffmStep inp t (some b) c = some b := by
          unfold ffmStep
          simp [hc, hlt]
        rw [hstep] at h
        rcases ih b r h with rfl | hrec
        · exact Or.inl rfl
        · obtain ⟨h1, h2, h3, pre, post, hdec, hpre⟩ := hrec
          refine Or.inr ⟨h1, h2, h3, c :: pre, post, by simp [hdec], ?_⟩
          intro x hx
          rcases List.mem_cons.mp hx with rfl | hx
          · exact lt_of_le_of_lt (not_lt.mp hlt) h1
          · exact hpre x hx
    · have hstep : ffmStep inp t (some b) c = some b := by
        unfold ffmStep
        simp [hc]
      rw [hstep] at h
      rcases ih b r h with rfl | hrec
      · exact Or.inl rfl
      · obtain ⟨h1, h2, h3, pre, post, hdec, hpre⟩ := hrec
        refine Or.inr ⟨h1, h2, h3, c :: pre, post, by simp [hdec], ?_⟩
        intro x hx
        rcases List.mem_cons.mp hx with rfl | hx
        · exact lt_of_lt_of_le (not_le.mp hc) h2
        · exact hpre x hx

lemma foldl_ffm_from_none (inp : String) (t : ℚ) :
    ∀ (cs : List String) (r : FuzzyMatch),
      cs.foldl (ffmStep inp t) none = some r →
      t ≤ r.similarity ∧ r.similarity = stringSimilarity inp r.keyword ∧
      ∃ pre post, cs = pre ++ r.keyword :: post ∧
        ∀ c ∈ pre, stringSimilarity inp c < r.similarity := by
  intro cs
  induction cs with
  | nil => intro r h; simp at h
  | cons c cs ih =>
    intro r h
    rw [List.foldl_cons] at h
    by_cases hc : t ≤ stringSimilarity inp c
    · have hstep : ffmStep inp t none c = some ⟨c, stringSimilarity inp c⟩ := by
        unfold ffmStep
        simp [hc]
      rw [hstep] at h
      rcases foldl_ffm_from_some inp t cs ⟨c, stringSimilarity inp c⟩ r h with
        rfl | hrec
      · exact ⟨hc, rfl, [], cs, rfl, by simp⟩
      · obtain ⟨h1, h2, h3, pre, post, hdec, hpre⟩ := hrec
        simp only at h1
        refine ⟨h2, h3, c :: pre, post, by simp [hdec], ?_⟩
        intro x hx
        rcases List.mem_cons.mp hx with rfl | hx
        · exact h1
        · exact hpre x hx
    · have hstep : ffmStep inp t none c = none := by
        unfold ffmStep
        simp [hc]
      rw [hstep] at h
      obtain ⟨ht, hval, pre, post, hdec, hpre⟩ := ih r h
      refine ⟨ht, hval, c :: pre, post, by simp [hdec], ?_⟩
      intro x hx
      rcases List.mem_cons.mp hx with rfl | hx
      · exact lt_of_lt_of_le (not_le.mp hc) ht
      · exact hpre x hx

/-! ### Claim C6 -/

/-- C6: the fuzzy matcher computes the classic unit-cost edit distance by
dynamic programming with `similarity = 1 - distance / max(len)`:
`kitten`/`sitting` is 3, the distance of a string to itself is 0 and its
similarity 1, similarity lies in `[0, 1]`, and `findFuzzyMatch` returns the
maximum-similarity candidate exactly when it reaches the threshold, ties
broken by first-encountered order — with `bkso` against
`["bakso", "mie", "nasi"]` selecting `bakso` at 0.7 and nothing at 0.95. -/
theorem fuzzy_matcher_correct :
    levenshteinDistance "kitten" "sitting" = 3
  ∧ (∀ s : String, levenshteinDistance s s = 0)
  ∧ (∀ s : String, stringSimilarity s s = 1)
  ∧ (∀ a b : String, 0 ≤ stringSimilarity a b ∧ stringSimilarity a b ≤ 1)
  ∧ (∀ (inp : String) (cs : List String) (t : ℚ),
       findFuzzyMatch inp cs t = none ↔
         ∀ c ∈ cs, stringSimilarity inp c < t)
  ∧ (∀ (inp : String) (cs : List String) (t : ℚ) (r : FuzzyMatch),
       findFuzzyMatch inp cs t = some r →
       r.similarity = stringSimilarity inp r.keyword ∧ t ≤ r.similarity ∧
       (∀ c ∈ cs, stringSimilarity inp c ≤ r.similarity) ∧
       ∃ pre post, cs = pre ++ r.keyword :: post ∧
         ∀ c ∈ pre, stringSimilarity inp c < r.similarity)
  ∧ (findFuzzyMatch "bkso" ["bakso", "mie", "nasi"] (7/10)).map
      (fun r => r.keyword) = some "bakso"
  ∧ findFuzzyMatch "bkso" ["bakso", "mie", "nasi"] (19/20) = none := by
  have hs1 : stringSimilarity "bkso" "bakso" = 4/5 := by
    simp only [stringSimilarity]
    rw [show max ("bkso" : String).length ("bakso" : String).length = 5 from rfl,
      show levenshteinDistance "bkso" "bakso" = 1 from by decide]
    norm_num
  have hs2 : stringSimilarity "bkso" "mie" = 0 := by
    simp only [stringSimilarity]
    rw [show max ("bkso" : String).length ("mie" : String).length = 4 from rfl,
      show levenshteinDistance "bkso" "mie" = 4 from by decide]
    norm_num
  have hs3 : stringSimilarity "bkso" "nasi" = 1/4 := by
    simp only [stringSimilarity]
    rw [show max ("bkso" : String).length ("nasi" : String).length = 4 from rfl,
      show levenshteinDistance "bkso" "nasi" = 3 from by decide]
    norm_num
  refine ⟨by decide, levenshteinDistance_self, stringSimilarity_self,
    stringSimilarity_bounds, ?_, ?_, ?_, ?_⟩
  · intro inp cs t
    rw [findFuzzyMatch_eq_foldl, foldl_ffm_none]
    simp
  · intro inp cs t r h
    rw [findFuzzyMatch_eq_foldl] at h
    obtain ⟨ht, hval, pre, post, hdec, hpre⟩ := foldl_ffm_from_none inp t cs r h
    obtain ⟨-, hmax⟩ := foldl_ffm_some_max inp t cs none r h
    refine ⟨hval, ht, fun c hc => ?_, pre, post, hdec, hpre⟩
    by_cases hct : t ≤ stringSimilarity inp c
    · exact hmax c hc hct
    · exact le_trans (le_of_lt (not_le.mp hct)) ht
  · have e1 : ffmStep "bkso" (7/10) none "bakso" = some ⟨"bakso", 4/5⟩ := by
      simp only [ffmStep, hs1]
      rw [if_pos (by norm_num)]
    have e2 : ffmStep "bkso" (7/10) (some ⟨"bakso", 4/5⟩) "mie" =
        some ⟨"bakso", 4/5⟩ := by
      simp only [ffmStep, hs2]
      rw [if_neg (by norm_num)]
    have e3 : ffmStep "bkso" (7/10) (some ⟨"bakso", 4/5⟩) "nasi" =
        some ⟨"bakso", 4/5⟩ := by
      simp only [ffmStep, hs3]
      rw [if_neg (by norm_num)]
    rw [findFuzzyMatch_eq_foldl, List.foldl_cons, e1, List.foldl_cons, e2,
      List.foldl_cons, e3, List.foldl_nil]
    rfl
  · have e1 : ffmStep "bkso" (19/20) none "bakso" = none := by
      simp only [ffmStep, hs1]
      rw [if_neg (by norm_num)]
    have e2 : ffmStep "bkso" (19/20) none "mie" = none := by
      simp only [ffmStep, hs2]
      rw [if_neg (by norm_num)]
    have e3 : ffmStep "bkso" (19/20) none "nasi" = none := by
      simp only [ffmStep, hs3]
      rw [if_neg (by norm_num)]
    rw [findFuzzyMatch_eq_foldl, List.foldl_cons, e1, List.foldl_cons, e2,
      List.foldl_cons, e3, List.foldl_nil]

/-- Witness for C6: the threshold/decomposition facts instantiated at the
concrete `bkso` search. -/
theorem fuzzy_matcher_correct_witness :
    levenshteinDistance "abc" "abc" = 0 ∧ stringSimilarity "abc" "abc" = 1 ∧
      (0 ≤ stringSimilarity "ab" "xy" ∧ stringSimilarity "ab" "xy" ≤ 1) :=
  ⟨fuzzy_matcher_correct.2.1 "abc", fuzzy_matcher_correct.2.2.1 "abc",
    fuzzy_matcher_correct.2.2.2.1 "ab" "xy"⟩

/-! ### Claim C1: character-class lemmas and suffix-grammar evaluation -/

lemma isDigitChar_iff (c : Char) :
    isDigitChar c = true ↔ 48 ≤ c.toNat ∧ c.toNat ≤ 57 := by
  simp [isDigitChar]

lemma isSpaceChar_cases (c : Char) (h : isSpaceChar c = true) :
    c = ' ' ∨ c = '\t' ∨ c = '\n' ∨ c = '\r' ∨ c = '\x0b' ∨ c = '\x0c' := by
  simpa [isSpaceChar, or_assoc] using h

lemma isSepChar_cases (c : Char) (h : isSepChar c = true) :
    c = '.' ∨ c = ',' := by
  simpa [isSepChar] using h

lemma lowerChar_digit (c : Char) (h : isDigitChar c = true) : lowerChar c = c := by
  rw [isDigitChar_iff] at h
  unfold lowerChar
  rw [if_neg]
  omega

lemma lowerChar_space (c : Char) (h : isSpaceChar c = true) : lowerChar c = c := by
  rcases isSpaceChar_cases c h with rfl | rfl | rfl | rfl | rfl | rfl <;> decide

lemma lowerChar_sep (c : Char) (h : isSepChar c = true) : lowerChar c = c := by
  rcases isSepChar_cases c h with rfl | rfl <;> decide

lemma not_space_of_digit (c : Char) (h : isDigitChar c = true) :
    isSpaceChar c = false := by
  cases hs : isSpaceChar c with
  | false => rfl
  | true =>
    rcases isSpaceChar_cases c hs with rfl | rfl | rfl | rfl | rfl | rfl <;>
      simp [isDigitChar] at h

lemma not_digit_of_space (c : Char) (h : isSpaceChar c = true) :
    isDigitChar c = false := by
  rcases isSpaceChar_cases c h with rfl | rfl | rfl | rfl | rfl | rfl <;> decide

lemma not_sep_of_space (c : Char) (h : isSpaceChar c = true) :
    isSepChar c = false := by
  rcases isSpaceChar_cases c h with rfl | rfl | rfl | rfl | rfl | rfl <;> decide

lemma not_digit_of_sep (c : Char) (h : isSepChar c = true) :
    isDigitChar c = false := by
  rcases isSepChar_cases c h with rfl | rfl <;> decide

lemma not_space_of_sep (c : Char) (h : isSepChar c = true) :
    isSpaceChar c = false := by
  rcases isSepChar_cases c h with rfl | rfl <;> decide

lemma map_lowerChar_id (l : List Char) (h : ∀ c ∈ l, lowerChar c = c) :
    l.map lowerChar = l := by
  induction l with
  | nil => rfl
  | cons c cs ih =>
    rw [List.map_cons, h c (by simp), ih (fun x hx => h x (by simp [hx]))]

lemma fracValue_nil (w : List Char) : fracValue w [] = (digitsVal w : ℚ) := by
  unfold fracValue
  norm_num [digitsVal]

lemma jsRound_natCast (n : ℕ) : jsRound ((n : ℕ) : ℚ) = (n : ℤ) := by
  unfold jsRound
  rw [Int.floor_eq_iff]
  constructor <;> push_cast <;> norm_num

/-- `matchNumSuffix` on `digits ++ spaces ++ suffix` with a recognized
suffix: the optional fraction group is absent. -/
lemma matchNumSuffix_eval_nofrac (alts : List (List Char)) (ds ws L : List Char)
    (hds : ds ≠ []) (hd : ∀ c ∈ ds, isDigitChar c = true)
    (hws : ∀ c ∈ ws, isSpaceChar c = true)
    (hL : L ∈ alts)
    (hL1 : headNot isDigitChar L) (hL2 : headNot isSpaceChar L)
    (hL3 : L ≠ []) (hL4 : ∀ c ∈ L, isSepChar c = false) :
    matchNumSuffix alts (ds ++ (ws ++ L)) = some (ds, []) := by
  have hrest : headNot isDigitChar (ws ++ L) := by
    cases ws with
    | nil => simpa using hL1
    | cons w ws' => exact not_digit_of_space w (hws w (by simp))
  have htake : (ds ++ (ws ++ L)).takeWhile isDigitChar = ds :=
    takeWhile_run _ _ _ hd hrest
  have hdrop : (ds ++ (ws ++ L)).dropWhile isDigitChar = ws ++ L :=
    dropWhile_run _ _ _ hd hrest
  have hdsne : ds.isEmpty = false := by
    cases ds with
    | nil => exact absurd rfl hds
    | cons _ _ => rfl
  have hdropSpace : (ws ++ L).dropWhile isSpaceChar = L :=
    dropWhile_run _ _ _ hws hL2
  simp only [matchNumSuffix, htake, hdrop, hdsne, Bool.false_eq_true, if_false]
  cases ws with
  | nil =>
    cases L with
    | nil => exact absurd rfl hL3
    | cons c r2 =>
      have hcsep : isSepChar c = false := hL4 c (by simp)
      simp only [List.nil_append] at hdropSpace ⊢
      rw [if_neg (by simp [hcsep])]
      rw [if_pos (show List.dropWhile isSpaceChar (c :: r2) ∈ alts by
        rw [hdropSpace]; exact hL)]
  | cons w ws' =>
    have hwsep : isSepChar w = false := not_sep_of_space w (hws w (by simp))
    have hds2 : List.dropWhile isSpaceChar (w :: (ws' ++ L)) = L := by
      rw [List.dropWhile_cons]
      simp only [hws w (by simp), if_true]
      exact dropWhile_run _ _ _ (fun c hc => hws c (by simp [hc])) hL2
    simp only [List.cons_append]
    rw [if_neg (by simp [hwsep])]
    rw [if_pos (show List.dropWhile isSpaceChar (w :: (ws' ++ L)) ∈ alts by
      rw [hds2]; exact hL)]

/-- `matchNumSuffix` on `digits ++ spaces ++ suffix` with an unrecognized
suffix fails. -/
lemma matchNumSuffix_fail_nofrac (alts : List (List Char)) (ds ws L : List Char)
    (hd : ∀ c ∈ ds, isDigitChar c = true)
    (hws : ∀ c ∈ ws, isSpaceChar c = true)
    (hL : L ∉ alts)
    (hL1 : headNot isDigitChar L) (hL2 : headNot isSpaceChar L)
    (hL3 : L ≠ []) (hL4 : ∀ c ∈ L, isSepChar c = false) :
    matchNumSuffix alts (ds ++ (ws ++ L)) = none := by
  have hrest : headNot isDigitChar (ws ++ L) := by
    cases ws with
    | nil => simpa using hL1
    | cons w ws' => exact not_digit_of_space w (hws w (by simp))
  have htake : (ds ++ (ws ++ L)).takeWhile isDigitChar = ds :=
    takeWhile_run _ _ _ hd hrest
  have hdrop : (ds ++ (ws ++ L)).dropWhile isDigitChar = ws ++ L :=
    dropWhile_run _ _ _ hd hrest
  have hdropSpace : (ws ++ L).dropWhile isSpaceChar = L :=
    dropWhile_run _ _ _ hws hL2
  simp only [matchNumSuffix, htake, hdrop]
  cases hdsne : ds.isEmpty with
  | true => rfl
  | false =>
    simp only [Bool.false_eq_true, if_false]
    cases ws with
    | nil =>
      cases L with
      | nil => exact absurd rfl hL3
      | cons c r2 =>
        have hcsep : isSepChar c = false := hL4 c (by simp)
        simp only [List.nil_append] at hdropSpace ⊢
        rw [if_neg (by simp [hcsep])]
        rw [if_neg (show ¬ List.dropWhile isSpaceChar (c :: r2) ∈ alts by
          rw [hdropSpace]; exact hL)]
    | cons w ws' =>
      have hwsep : isSepChar w = false := not_sep_of_space w (hws w (by simp))
      have hds2 : List.dropWhile isSpaceChar (w :: (ws' ++ L)) = L := by
        rw [List.dropWhile_cons]
        simp only [hws w (by simp), if_true]
        exact dropWhile_run _ _ _ (fun c hc => hws c (by simp [hc])) hL2
      simp only [List.cons_append]
      rw [if_neg (by simp [hwsep])]
      rw [if_neg (show ¬ List.dropWhile isSpaceChar (w :: (ws' ++ L)) ∈ alts by
        rw [hds2]; exact hL)]

/-- `matchNumSuffix` on `digits ++ sep ++ fraction ++ spaces ++ suffix` with
a recognized suffix: the fraction group is taken. -/
lemma matchNumSuffix_eval_frac (alts : List (List Char))
    (ds fs ws L : List Char) (sep : Char)
    (hds : ds ≠ []) (hd : ∀ c ∈ ds, isDigitChar c = true)
    (hsep : isSepChar sep = true)
    (hfs : fs ≠ []) (hf : ∀ c ∈ fs, isDigitChar c = true)
    (hws : ∀ c ∈ ws, isSpaceChar c = true)
    (hL : L ∈ alts)
    (hL1 : headNot isDigitChar L) (hL2 : headNot isSpaceChar L) :
    matchNumSuffix alts (ds ++ sep :: (fs ++ (ws ++ L))) = some (ds, fs) := by
  have hsepd : headNot isDigitChar (sep :: (fs ++ (ws ++ L))) :=
    not_digit_of_sep sep hsep
  have htake : (ds ++ sep :: (fs ++ (ws ++ L))).takeWhile isDigitChar = ds :=
    takeWhile_run _ _ _ hd hsepd
  have hdrop : (ds ++ sep :: (fs ++ (ws ++ L))).dropWhile isDigitChar =
      sep :: (fs ++ (ws ++ L)) :=
    dropWhile_run _ _ _ hd hsepd
  have hdsne : ds.isEmpty = false := by
    cases ds with
    | nil => exact absurd rfl hds
    | cons _ _ => rfl
  have hrest : headNot isDigitChar (ws ++ L) := by
    cases ws with
    | nil => simpa using hL1
    | cons w ws' => exact not_digit_of_space w (hws w (by simp))
  have htakef : (fs ++ (ws ++ L)).takeWhile isDigitChar = fs :=
    takeWhile_run _ _ _ hf hrest
  have hdropf : (fs ++ (ws ++ L)).dropWhile isDigitChar = ws ++ L :=
    dropWhile_run _ _ _ hf hrest
  have hdropSpace : (ws ++ L).dropWhile isSpaceChar = L :=
    dropWhile_run _ _ _ hws hL2
  have hfsne : fs.isEmpty = false := by
    cases fs with
    | nil => exact absurd rfl hfs
    | cons _ _ => rfl
  simp only [matchNumSuffix, htake, hdrop, hdsne, Bool.false_eq_true, if_false]
  rw [if_pos hsep]
  rw [htakef, hdropf, hdropSpace]
  rw [if_pos ⟨by simp [hfsne], hL⟩]

/-- `matchNumSuffix` on a fraction-carrying token with an unrecognized
suffix fails: the group branch fails on the suffix test and the no-group
fallback sees the separator. -/
lemma matchNumSuffix_fail_frac (alts : List (List Char))
    (ds fs ws L : List Char) (sep : Char)
    (hd : ∀ c ∈ ds, isDigitChar c = true)
    (hsep : isSepChar sep = true)
    (hf : ∀ c ∈ fs, isDigitChar c = true)
    (hws : ∀ c ∈ ws, isSpaceChar c = true)
    (hL : L ∉ alts)
    (hL1 : headNot isDigitChar L) (hL2 : headNot isSpaceChar L)
    (hnotsep : (sep :: (fs ++ (ws ++ L))) ∉ alts) :
    matchNumSuffix alts (ds ++ sep :: (fs ++ (ws ++ L))) = none := by
  have hsepd : headNot isDigitChar (sep :: (fs ++ (ws ++ L))) :=
    not_digit_of_sep sep hsep
  have htake : (ds ++ sep :: (fs ++ (ws ++ L))).takeWhile isDigitChar = ds :=
    takeWhile_run _ _ _ hd hsepd
  have hdrop : (ds ++ sep :: (fs ++ (ws ++ L))).dropWhile isDigitChar =
      sep :: (fs ++ (ws ++ L)) :=
    dropWhile_run _ _ _ hd hsepd
  have hrest : headNot isDigitChar (ws ++ L) := by
    cases ws with
    | nil => simpa using hL1
    | cons w ws' => exact not_digit_of_space w (hws w (by simp))
  have htakef : (fs ++ (ws ++ L)).takeWhile isDigitChar = fs :=
    takeWhile_run _ _ _ hf hrest
  have hdropf : (fs ++ (ws ++ L)).dropWhile isDigitChar = ws ++ L :=
    dropWhile_run _ _ _ hf hrest
  have hdropSpace : (ws ++ L).dropWhile isSpaceChar = L :=
    dropWhile_run _ _ _ hws hL2
  have hsepns : isSpaceChar sep = false := not_space_of_sep sep hsep
  simp only [matchNumSuffix, htake, hdrop]
  cases hdsne : ds.isEmpty with
  | true => rfl
  | false =>
    simp only [Bool.false_eq_true, if_false]
    rw [if_pos hsep, htakef, hdropf, hdropSpace]
    rw [if_neg (by intro hand; exact hL hand.2)]
    rw [dropWhile_eq_self_of_headNot _ _ (by simpa using hsepns)]
    rw [if_neg hnotsep]

lemma headNot_space_digits (ds rest : List Char) (hds : ds ≠ [])
    (hd : ∀ c ∈ ds, isDigitChar c = true) :
    headNot isSpaceChar (ds ++ rest) := by
  cases ds with
  | nil => exact absurd rfl hds
  | cons d ds' => exact not_space_of_digit d (hd d (by simp))

lemma headNot_space_rev_sfx (sfx rest : List Char) (hsfxne : sfx ≠ [])
    (hns : ∀ c ∈ sfx, isSpaceChar c = false) :
    headNot isSpaceChar (sfx.reverse ++ rest) := by
  cases hrev : sfx.reverse with
  | nil =>
    rw [List.reverse_eq_nil_iff] at hrev
    exact absurd hrev hsfxne
  | cons r rs =>
    have hr : r ∈ sfx := by
      rw [← List.mem_reverse, hrev]
      simp
    exact hns r hr

lemma headNot_space_reverse (tok sfx : List Char)
    (h : ∃ pre, tok = pre ++ sfx) (hsfxne : sfx ≠ [])
    (hns : ∀ c ∈ sfx, isSpaceChar c = false) :
    headNot isSpaceChar tok.reverse := by
  obtain ⟨pre, rfl⟩ := h
  rw [List.reverse_append]
  exact headNot_space_rev_sfx sfx pre.reverse hsfxne hns

lemma cleaned_of_token (tok : List Char) (h1 : headNot isSpaceChar tok)
    (h2 : headNot isSpaceChar tok.reverse) :
    (trimChars (String.mk tok).data).map lowerChar = tok.map lowerChar := by
  show (trimChars tok).map lowerChar = tok.map lowerChar
  rw [trimChars_eq_self tok h1 h2]

lemma parseAmount_eq_of_ribu (s : String) (w f : List Char)
    (hne : ((trimChars s.data).map lowerChar).isEmpty = false)
    (hjt : matchNumSuffix [['j', 't'], ['j', 'u', 't', 'a']]
      ((trimChars s.data).map lowerChar) = none)
    (hrb : matchNumSuffix [['r', 'b'], ['r', 'i', 'b', 'u'], ['k']]
      ((trimChars s.data).map lowerChar) = some (w, f)) :
    parseAmount s = some ((jsRound (fracValue w f * 1000) : ℚ)) := by
  simp only [parseAmount, hne, Bool.false_eq_true, if_false, hjt, hrb]

lemma parseAmount_eq_of_juta (s : String) (w f : List Char)
    (hne : ((trimChars s.data).map lowerChar).isEmpty = false)
    (hjt : matchNumSuffix [['j', 't'], ['j', 'u', 't', 'a']]
      ((trimChars s.data).map lowerChar) = some (w, f)) :
    parseAmount s = some ((jsRound (fracValue w f * 1000000) : ℚ)) := by
  simp only [parseAmount, hne, Bool.false_eq_true, if_false, hjt]

lemma parseAmount_thousand_nofrac (ds ws sfx : List Char)
    (hds : ds ≠ []) (hd : ∀ c ∈ ds, isDigitChar c = true)
    (hws : ∀ c ∈ ws, isSpaceChar c = true)
    (hns : ∀ c ∈ sfx, isSpaceChar c = false)
    (hL : sfx.map lowerChar = ['r', 'b'] ∨
          sfx.map lowerChar = ['r', 'i', 'b', 'u'] ∨
          sfx.map lowerChar = ['k']) :
    parseAmount (String.mk (ds ++ (ws ++ sfx))) =
      some ((digitsVal ds : ℚ) * 1000) := by
  have hsfxne : sfx ≠ [] := by
    intro h
    rcases hL with h' | h' | h' <;> (rw [h] at h'; simp at h')
  obtain ⟨hmem, hL1, hL2, hL3, hL4, hnot⟩ :
      sfx.map lowerChar ∈ [['r', 'b'], ['r', 'i', 'b', 'u'], ['k']] ∧
      headNot isDigitChar (sfx.map lowerChar) ∧
      headNot isSpaceChar (sfx.map lowerChar) ∧
      sfx.map lowerChar ≠ [] ∧
      (∀ c ∈ sfx.map lowerChar, isSepChar c = false) ∧
      sfx.map lowerChar ∉ [['j', 't'], ['j', 'u', 't', 'a']] := by
    rcases hL with h | h | h <;> rw [h] <;>
      exact ⟨by decide, by decide, by decide, by decide, by decide, by decide⟩
  have h1 : headNot isSpaceChar (ds ++ (ws ++ sfx)) :=
    headNot_space_digits ds _ hds hd
  have h2 : headNot isSpaceChar (ds ++ (ws ++ sfx)).reverse :=
    headNot_space_reverse _ sfx ⟨ds ++ ws, by simp⟩ hsfxne hns
  have hclean : (trimChars (String.mk (ds ++ (ws ++ sfx))).data).map lowerChar =
      ds ++ (ws ++ sfx.map lowerChar) := by
    rw [cleaned_of_token _ h1 h2, List.map_append, List.map_append,
      map_lowerChar_id ds (fun c hc => lowerChar_digit c (hd c hc)),
      map_lowerChar_id ws (fun c hc => lowerChar_space c (hws c hc))]
  have hne : ((trimChars (String.mk (ds ++ (ws ++ sfx))).data).map
      lowerChar).isEmpty = false := by
    rw [hclean]
    cases ds with
    | nil => exact absurd rfl hds
    | cons _ _ => rfl
  have hjt := matchNumSuffix_fail_nofrac [['j', 't'], ['j', 'u', 't', 'a']]
    ds ws (sfx.map lowerChar) hd hws hnot hL1 hL2 hL3 hL4
  have hrb := matchNumSuffix_eval_nofrac [['r', 'b'], ['r', 'i', 'b', 'u'], ['k']]
    ds ws (sfx.map lowerChar) hds hd hws hmem hL1 hL2 hL3 hL4
  have heval := parseAmount_eq_of_ribu (String.mk (ds ++ (ws ++ sfx))) ds []
    hne (by rw [hclean]; exact hjt) (by rw [hclean]; exact hrb)
  rw [heval, fracValue_nil]
  rw [show ((digitsVal ds : ℚ) * 1000) = ((digitsVal ds * 1000 : ℕ) : ℚ) by
    push_cast; ring]
  rw [jsRound_natCast]
  norm_cast

lemma parseAmount_thousand_frac (ds fs ws sfx : List Char) (sep : Char)
    (hds : ds ≠ []) (hd : ∀ c ∈ ds, isDigitChar c = true)
    (hsep : isSepChar sep = true)
    (hfs : fs ≠ []) (hf : ∀ c ∈ fs, isDigitChar c = true)
    (hws : ∀ c ∈ ws, isSpaceChar c = true)
    (hns : ∀ c ∈ sfx, isSpaceChar c = false)
    (hL : sfx.map lowerChar = ['r', 'b'] ∨
          sfx.map lowerChar = ['r', 'i', 'b', 'u'] ∨
          sfx.map lowerChar = ['k']) :
    parseAmount (String.mk (ds ++ sep :: (fs ++ (ws ++ sfx)))) =
      some ((jsRound (fracValue ds fs * 1000) : ℚ)) := by
  have hsfxne : sfx ≠ [] := by
    intro h
    rcases hL with h' | h' | h' <;> (rw [h] at h'; simp at h')
  obtain ⟨hmem, hL1, hL2, hL3, hL4, hnot⟩ :
      sfx.map lowerChar ∈ [['r', 'b'], ['r', 'i', 'b', 'u'], ['k']] ∧
      headNot isDigitChar (sfx.map lowerChar) ∧
      headNot isSpaceChar (sfx.map lowerChar) ∧
      sfx.map lowerChar ≠ [] ∧
      (∀ c ∈ sfx.map lowerChar, isSepChar c = false) ∧
      sfx.map lowerChar ∉ [['j', 't'], ['j', 'u', 't', 'a']] := by
    rcases hL with h | h | h <;> rw [h] <;>
      exact ⟨by decide, by decide, by decide, by decide, by decide, by decide⟩
  have hnotsep : (sep :: (fs ++ (ws ++ sfx.map lowerChar))) ∉
      [['j', 't'], ['j', 'u', 't', 'a']] := by
    rcases isSepChar_cases sep hsep with rfl | rfl <;> simp
  have h1 : headNot isSpaceChar (ds ++ sep :: (fs ++ (ws ++ sfx))) :=
    headNot_space_digits ds _ hds hd
  have h2 : headNot isSpaceChar (ds ++ sep :: (fs ++ (ws ++ sfx))).reverse :=
    headNot_space_reverse _ sfx ⟨ds ++ sep :: (fs ++ ws), by simp⟩ hsfxne hns
  have hclean : (trimChars (String.mk
      (ds ++ sep :: (fs ++ (ws ++ sfx)))).data).map lowerChar =
      ds ++ sep :: (fs ++ (ws ++ sfx.map lowerChar)) := by
    rw [cleaned_of_token _ h1 h2, List.map_append, List.map_cons,
      List.map_append, List.map_append,
      map_lowerChar_id ds (fun c hc => lowerChar_digit c (hd c hc)),
      map_lowerChar_id fs (fun c hc => lowerChar_digit c (hf c hc)),
      map_lowerChar_id ws (fun c hc => lowerChar_space c (hws c hc)),
      lowerChar_sep sep hsep]
  have hne : ((trimChars (String.mk
      (ds ++ sep :: (fs ++ (ws ++ sfx)))).data).map lowerChar).isEmpty = false := by
    rw [hclean]
    cases ds with
    | nil => exact absurd rfl hds
    | cons _ _ => rfl
  have hjt := matchNumSuffix_fail_frac [['j', 't'], ['j', 'u', 't', 'a']]
    ds fs ws (sfx.map lowerChar) sep hd hsep hf hws hnot hL1 hL2 hnotsep
  have hrb := matchNumSuffix_eval_frac [['r', 'b'], ['r', 'i', 'b', 'u'], ['k']]
    ds fs ws (sfx.map lowerChar) sep hds hd hsep hfs hf hws hmem hL1 hL2
  exact parseAmount_eq_of_ribu (String.mk (ds ++ sep :: (fs ++ (ws ++ sfx))))
    ds fs hne (by rw [hclean]; exact hjt) (by rw [hclean]; exact hrb)

lemma parseAmount_million_nofrac (ds ws sfx : List Char)
    (hds : ds ≠ []) (hd : ∀ c ∈ ds, isDigitChar c = true)
    (hws : ∀ c ∈ ws, isSpaceChar c = true)
    (hns : ∀ c ∈ sfx, isSpaceChar c = false)
    (hL : sfx.map lowerChar = ['j', 't'] ∨
          sfx.map lowerChar = ['j', 'u', 't', 'a']) :
    parseAmount (String.mk (ds ++ (ws ++ sfx))) =
      some ((digitsVal ds : ℚ) * 1000000) := by
  have hsfxne : sfx ≠ [] := by
    intro h
    rcases hL with h' | h' <;> (rw [h] at h'; simp at h')
  obtain ⟨hmem, hL1, hL2, hL3, hL4⟩ :
      sfx.map lowerChar ∈ [['j', 't'], ['j', 'u', 't', 'a']] ∧
      headNot isDigitChar (sfx.map lowerChar) ∧
      headNot isSpaceChar (sfx.map lowerChar) ∧
      sfx.map lowerChar ≠ [] ∧
      (∀ c ∈ sfx.map lowerChar, isSepChar c = false) := by
    rcases hL with h | h <;> rw [h] <;>
      exact ⟨by decide, by decide, by decide, by decide, by decide⟩
  have h1 : headNot isSpaceChar (ds ++ (ws ++ sfx)) :=
    headNot_space_digits ds _ hds hd
  have h2 : headNot isSpaceChar (ds ++ (ws ++ sfx)).reverse :=
    headNot_space_reverse _ sfx ⟨ds ++ ws, by simp⟩ hsfxne hns
  have hclean : (trimChars (String.mk (ds ++ (ws ++ sfx))).data).map lowerChar =
      ds ++ (ws ++ sfx.map lowerChar) := by
    rw [cleaned_of_token _ h1 h2, List.map_append, List.map_append,
      map_lowerChar_id ds (fun c hc => lowerChar_digit c (hd c hc)),
      map_lowerChar_id ws (fun c hc => lowerChar_space c (hws c hc))]
  have hne : ((trimChars (String.mk (ds ++ (ws ++ sfx))).data).map
      lowerChar).isEmpty = false := by
    rw [hclean]
    cases ds with
    | nil => exact absurd rfl hds
    | cons _ _ => rfl
  have hjt := matchNumSuffix_eval_nofrac [['j', 't'], ['j', 'u', 't', 'a']]
    ds ws (sfx.map lowerChar) hds hd hws hmem hL1 hL2 hL3 hL4
  have heval := parseAmount_eq_of_juta (String.mk (ds ++ (ws ++ sfx))) ds []
    hne (by rw [hclean]; exact hjt)
  rw [heval, fracValue_nil]
  rw [show ((digitsVal ds : ℚ) * 1000000) = ((digitsVal ds * 1000000 : ℕ) : ℚ) by
    push_cast; ring]
  rw [jsRound_natCast]
  norm_cast

lemma parseAmount_million_frac (ds fs ws sfx : List Char) (sep : Char)
    (hds : ds ≠ []) (hd : ∀ c ∈ ds, isDigitChar c = true)
    (hsep : isSepChar sep = true)
    (hfs : fs ≠ []) (hf : ∀ c ∈ fs, isDigitChar c = true)
    (hws : ∀ c ∈ ws, isSpaceChar c = true)
    (hns : ∀ c ∈ sfx, isSpaceChar c = false)
    (hL : sfx.map lowerChar = ['j', 't'] ∨
          sfx.map lowerChar = ['j', 'u', 't', 'a']) :
    parseAmount (String.mk (ds ++ sep :: (fs ++ (ws ++ sfx)))) =
      some ((jsRound (fracValue ds fs * 1000000) : ℚ)) := by
  have hsfxne : sfx ≠ [] := by
    intro h
    rcases hL with h' | h' <;> (rw [h] at h'; simp at h')
  obtain ⟨hmem, hL1, hL2⟩ :
      sfx.map lowerChar ∈ [['j', 't'], ['j', 'u', 't', 'a']] ∧
      headNot isDigitChar (sfx.map lowerChar) ∧
      headNot isSpaceChar (sfx.map lowerChar) := by
    rcases hL with h | h <;> rw [h] <;>
      exact ⟨by decide, by decide, by decide⟩
  have h1 : headNot isSpaceChar (ds ++ sep :: (fs ++ (ws ++ sfx))) :=
    headNot_space_digits ds _ hds hd
  have h2 : headNot isSpaceChar (ds ++ sep :: (fs ++ (ws ++ sfx))).reverse :=
    headNot_space_reverse _ sfx ⟨ds ++ sep :: (fs ++ ws), by simp⟩ hsfxne hns
  have hclean : (trimChars (String.mk
      (ds ++ sep :: (fs ++ (ws ++ sfx)))).data).map lowerChar =
      ds ++ sep :: (fs ++ (ws ++ sfx.map lowerChar)) := by
    rw [cleaned_of_token _ h1 h2, List.map_append, List.map_cons,
      List.map_append, List.map_append,
      map_lowerChar_id ds (fun c hc => lowerChar_digit c (hd c hc)),
      map_lowerChar_id fs (fun c hc => lowerChar_digit c (hf c hc)),
      map_lowerChar_id ws (fun c hc => lowerChar_space c (hws c hc)),
      lowerChar_sep sep hsep]
  have hne : ((trimChars (String.mk
      (ds ++ sep :: (fs ++ (ws ++ sfx)))).data).map lowerChar).isEmpty = false := by
    rw [hclean]
    cases ds with
    | nil => exact absurd rfl hds
    | cons _ _ => rfl
  have hjt := matchNumSuffix_eval_frac [['j', 't'], ['j', 'u', 't', 'a']]
    ds fs ws (sfx.map lowerChar) sep hds hd hsep hfs hf hws hmem hL1 hL2
  exact parseAmount_eq_of_juta (String.mk (ds ++ sep :: (fs ++ (ws ++ sfx))))
    ds fs hne (by rw [hclean]; exact hjt)

/-! ### Claim C1 -/

/-- C1: for every positive integer (as a nonempty digit string `ds` with
value `N`), a thousand-suffix token — `ds`, an optional `[.,]`-separated
fractional digit string, optional whitespace, and a suffix lowercasing to
`rb`, `ribu` or `k` — parses to `N × 1000` (the fraction folded in and the
result rounded to nearest by `Math.round`); a million-suffix token (`jt`,
`juta`) parses the same way with multiplier 1 000 000; grouped
thousand-separator tokens parse with all separators stripped.  The suffix
grammars are consulted before the separator grammar and the separator
grammar before plain digits, which these equations witness on the
overlapping inputs. -/
theorem parseAmount_suffix_and_separator_grammars :
    (∀ ds ws sfx : List Char,
       ds ≠ [] → (∀ c ∈ ds, isDigitChar c = true) → 0 < digitsVal ds →
       (∀ c ∈ ws, isSpaceChar c = true) → (∀ c ∈ sfx, isSpaceChar c = false) →
       (sfx.map lowerChar = ['r', 'b'] ∨ sfx.map lowerChar = ['r', 'i', 'b', 'u'] ∨
        sfx.map lowerChar = ['k']) →
       parseAmount (String.mk (ds ++ (ws ++ sfx))) =
         some ((digitsVal ds : ℚ) * 1000))
  ∧ (∀ (ds fs ws sfx : List Char) (sep : Char),
       ds ≠ [] → (∀ c ∈ ds, isDigitChar c = true) → 0 < digitsVal ds →
       isSepChar sep = true →
       fs ≠ [] → (∀ c ∈ fs, isDigitChar c = true) →
       (∀ c ∈ ws, isSpaceChar c = true) → (∀ c ∈ sfx, isSpaceChar c = false) →
       (sfx.map lowerChar = ['r', 'b'] ∨ sfx.map lowerChar = ['r', 'i', 'b', 'u'] ∨
        sfx.map lowerChar = ['k']) →
       parseAmount (String.mk (ds ++ sep :: (fs ++ (ws ++ sfx)))) =
         some ((jsRound (fracValue ds fs * 1000) : ℚ)))
  ∧ (∀ ds ws sfx : List Char,
       ds ≠ [] → (∀ c ∈ ds, isDigitChar c = true) → 0 < digitsVal ds →
       (∀ c ∈ ws, isSpaceChar c = true) → (∀ c ∈ sfx, isSpaceChar c = false) →
       (sfx.map lowerChar = ['j', 't'] ∨ sfx.map lowerChar = ['j', 'u', 't', 'a']) →
       parseAmount (String.mk (ds ++ (ws ++ sfx))) =
         some ((digitsVal ds : ℚ) * 1000000))
  ∧ (∀ (ds fs ws sfx : List Char) (sep : Char),
       ds ≠ [] → (∀ c ∈ ds, isDigitChar c = true) → 0 < digitsVal ds →
       isSepChar sep = true →
       fs ≠ [] → (∀ c ∈ fs, isDigitChar c = true) →
       (∀ c ∈ ws, isSpaceChar c = true) → (∀ c ∈ sfx, isSpaceChar c = false) →
       (sfx.map lowerChar = ['j', 't'] ∨ sfx.map lowerChar = ['j', 'u', 't', 'a']) →
       parseAmount (String.mk (ds ++ sep :: (fs ++ (ws ++ sfx)))) =
         some ((jsRound (fracValue ds fs * 1000000) : ℚ)))
  ∧ parseAmount "15.000" = some 15000
  ∧ parseAmount "15,000" = some 15000
  ∧ parseAmount "1.500.000" = some 1500000 := by
  refine ⟨?_, ?_, ?_, ?_, by decide, by decide, by decide⟩
  · intro ds ws sfx hds hd _ hws hns hL
    exact parseAmount_thousand_nofrac ds ws sfx hds hd hws hns hL
  · intro ds fs ws sfx sep hds hd _ hsep hfs hf hws hns hL
    exact parseAmount_thousand_frac ds fs ws sfx sep hds hd hsep hfs hf hws hns hL
  · intro ds ws sfx hds hd _ hws hns hL
    exact parseAmount_million_nofrac ds ws sfx hds hd hws hns hL
  · intro ds fs ws sfx sep hds hd _ hsep hfs hf hws hns hL
    exact parseAmount_million_frac ds fs ws sfx sep hds hd hsep hfs hf hws hns hL

/-- Witness for C1: `15Rb`, `1,5 ribu`, `2jt` and `1.5juta` parse through
the four suffix equations. -/
theorem parseAmount_suffix_and_separator_grammars_witness :
    parseAmount (String.mk ['1', '5', 'R', 'b']) = some 15000
  ∧ parseAmount (String.mk ['1', ',', '5', ' ', 'r', 'i', 'b', 'u']) = some 1500
  ∧ parseAmount (String.mk ['2', 'j', 't']) = some 2000000
  ∧ parseAmount (String.mk ['1', '.', '5', 'j', 'u', 't', 'a']) = some 1500000 := by
  refine ⟨?_, ?_, ?_, ?_⟩
  · have h := parseAmount_suffix_and_separator_grammars.1 ['1', '5'] []
      ['R', 'b'] (by decide) (by decide) (by decide) (by decide) (by decide)
      (by decide)
    rw [show (['1', '5'] ++ ([] ++ ['R', 'b'])) = ['1', '5', 'R', 'b'] from rfl] at h
    rw [h, show digitsVal ['1', '5'] = 15 from rfl]
    norm_num
  · have h := parseAmount_suffix_and_separator_grammars.2.1 ['1'] ['5'] [' ']
      ['r', 'i', 'b', 'u'] ',' (by decide) (by decide) (by decide) (by decide)
      (by decide) (by decide) (by decide) (by decide) (by decide)
    rw [show (['1'] ++ ',' :: (['5'] ++ ([' '] ++ ['r', 'i', 'b', 'u']))) =
      ['1', ',', '5', ' ', 'r', 'i', 'b', 'u'] from rfl] at h
    rw [h, fracValue, show digitsVal ['1'] = 1 from rfl,
      show digitsVal ['5'] = 5 from rfl]
    norm_num [jsRound]
  · have h := parseAmount_suffix_and_separator_grammars.2.2.1 ['2'] []
      ['j', 't'] (by decide) (by decide) (by decide) (by decide) (by decide)
      (by decide)
    rw [show (['2'] ++ ([] ++ ['j', 't'])) = ['2', 'j', 't'] from rfl] at h
    rw [h, show digitsVal ['2'] = 2 from rfl]
    norm_num
  · have h := parseAmount_suffix_and_separator_grammars.2.2.2.1 ['1'] ['5'] []
      ['j', 'u', 't', 'a'] '.' (by decide) (by decide) (by decide) (by decide)
      (by decide) (by decide) (by decide) (by decide) (by decide)
    rw [show (['1'] ++ '.' :: (['5'] ++ ([] ++ ['j', 'u', 't', 'a']))) =
      ['1', '.', '5', 'j', 'u', 't', 'a'] from rfl] at h
    rw [h, fracValue, show digitsVal ['1'] = 1 from rfl,
      show digitsVal ['5'] = 5 from rfl]
    norm_num [jsRound]

/-! ### Claim C9 -/

/-- Counterexample to C9 as stated: the decimal-fallback grammar with fewer
than three fractional digits returns a non-integer — `parseAmount "15,5"`
is `15.5`. -/
theorem parseAmount_decimal_noninteger :
    parseAmount "15,5" = some (31/2) ∧ ¬ ∃ n : ℤ, ((31 : ℚ)/2) = (n : ℚ) := by
  constructor
  · have h : parseAmount "15,5" = some ((digitsVal ['1', '5'] : ℚ) +
        (digitsVal ['5'] : ℚ) / (10 : ℚ) ^ (1 : ℕ)) := rfl
    rw [h, show digitsVal ['1', '5'] = 15 from rfl,
      show digitsVal ['5'] = 5 from rfl]
    norm_num
  · rintro ⟨n, hn⟩
    have h2 : (31 : ℚ) = (n : ℚ) * 2 := by
      field_simp at hn
      linarith
    have h3 : (31 : ℤ) = n * 2 := by exact_mod_cast h2
    omega

/-- Case analysis on the branch of `parseAmount` that produced the value:
every branch other than the short-fraction decimal fallback returns an
integer. -/
lemma parseAmount_integer_cases (s : String) (q : ℚ)
    (h : parseAmount s = some q) :
    (∃ n : ℤ, q = (n : ℚ)) ∨
    (∃ d1 d2, matchDecimal ((trimChars s.data).map lowerChar) = some (d1, d2) ∧
      d2.length < 3 ∧
      q = (digitsVal d1 : ℚ) + (digitsVal d2 : ℚ) / (10 : ℚ) ^ d2.length) := by
  simp only [parseAmount] at h
  set cl := (trimChars s.data).map lowerChar with hcl
  by_cases hne : cl.isEmpty = true
  · rw [if_pos hne] at h
    exact absurd h (by simp)
  · rw [if_neg hne] at h
    cases hjt : matchNumSuffix [['j', 't'], ['j', 'u', 't', 'a']] cl with
    | some wf =>
      obtain ⟨w, f⟩ := wf
      rw [hjt] at h
      change some ((jsRound (fracValue w f * 1000000) : ℤ) : ℚ) = some q at h
      exact Or.inl ⟨jsRound (fracValue w f * 1000000), (Option.some.inj h).symm⟩
    | none =>
      rw [hjt] at h
      cases hrb : matchNumSuffix [['r', 'b'], ['r', 'i', 'b', 'u'], ['k']] cl with
      | some wf =>
        obtain ⟨w, f⟩ := wf
        rw [hrb] at h
        change some ((jsRound (fracValue w f * 1000) : ℤ) : ℚ) = some q at h
        exact Or.inl ⟨jsRound (fracValue w f * 1000), (Option.some.inj h).symm⟩
      | none =>
        rw [hrb] at h
        cases hts : matchThousandSep cl with
        | some n =>
          rw [hts] at h
          change some ((n : ℕ) : ℚ) = some q at h
          refine Or.inl ⟨(n : ℤ), ?_⟩
          rw [← Option.some.inj h]
          push_cast
          ring
        | none =>
          rw [hts] at h
          by_cases hpl : ¬cl.isEmpty = true ∧ cl.all isDigitChar = true
          · rw [if_pos hpl] at h
            refine Or.inl ⟨(digitsVal cl : ℤ), ?_⟩
            rw [← Option.some.inj h]
            push_cast
            ring
          · rw [if_neg hpl] at h
            cases hdec : matchDecimal cl with
            | none =>
              rw [hdec] at h
              exact absurd h (by simp)
            | some dd =>
              obtain ⟨d1, d2⟩ := dd
              rw [hdec] at h
              change (if d2.length < 3 then
                  some ((digitsVal d1 : ℚ) + (digitsVal d2 : ℚ) / (10 : ℚ) ^ d2.length)
                else some ((digitsVal (d1 ++ d2) : ℚ))) = some q at h
              by_cases hlen : d2.length < 3
              · rw [if_pos hlen] at h
                exact Or.inr ⟨d1, d2, rfl, hlen, (Option.some.inj h).symm⟩
              · rw [if_neg hlen] at h
                refine Or.inl ⟨(digitsVal (d1 ++ d2) : ℤ), ?_⟩
                rw [← Option.some.inj h]
                push_cast
                ring

/-- C9 amended: every branch of `parseAmount` other than the short-fraction
decimal fallback returns an integer; the decimal fallback with fewer than
three fractional digits returns the exact value `d₁ + d₂ / 10^len`, which
need not be an integer (with three or more fractional digits the separators
are stripped and an integer is returned). -/
theorem parseAmount_integer_except_decimal (s : String) (q : ℚ)
    (h : parseAmount s = some q) :
    (∃ n : ℤ, q = (n : ℚ)) ∨
    (∃ d1 d2, matchDecimal ((trimChars s.data).map lowerChar) = some (d1, d2) ∧
      d2.length < 3 ∧
      q = (digitsVal d1 : ℚ) + (digitsVal d2 : ℚ) / (10 : ℚ) ^ d2.length) :=
  parseAmount_integer_cases s q h

/-- Witness for amended C9: the grouped-separator token `15.000` lands in
the integer disjunct. -/
theorem parseAmount_integer_except_decimal_witness :
    (∃ n : ℤ, (15000 : ℚ) = (n : ℚ)) ∨
    (∃ d1 d2,
      matchDecimal ((trimChars ("15.000" : String).data).map lowerChar) =
        some (d1, d2) ∧ d2.length < 3 ∧
      (15000 : ℚ) = (digitsVal d1 : ℚ) + (digitsVal d2 : ℚ) / (10 : ℚ) ^ d2.length) :=
  parseAmount_integer_except_decimal "15.000" 15000 (by decide)

/-! ### Claim C4 -/

lemma mem_prefix_of_range (n a : ℕ) (l1 l2 : List ℕ)
    (h : List.range n = l1 ++ a :: l2) : ∀ j < a, j ∈ l1 := by
  have hlen : l1.length < n := by
    have := congrArg List.length h
    simp at this
    omega
  have ha : a = l1.length := by
    have h1 : (List.range n)[l1.length]? = some l1.length := by
      simp [List.getElem?_range, hlen]
    have h2 : (List.range n)[l1.length]? = some a := by
      rw [h, List.getElem?_append_right (le_refl _)]
      simp
    rw [h1] at h2
    exact (Option.some.inj h2).symm
  intro j hj
  have hl1 : l1 = List.range l1.length := by
    calc l1 = (l1 ++ a :: l2).take l1.length := (List.take_left _ _).symm
      _ = (List.range n).take l1.length := by rw [← h]
      _ = List.range (min l1.length n) := List.take_range _ _
      _ = List.range l1.length := by rw [min_eq_left (le_of_lt hlen)]
  rw [hl1, List.mem_range]
  omega

lemma firstMatchPos_spec (m : List Char → ℕ → Option ℕ) (s : List Char)
    (i e : ℕ) (h : firstMatchPos m s = some (i, e)) :
    m s i = some e ∧ ∀ j < i, m s j = none := by
  unfold firstMatchPos at h
  obtain ⟨l1, a, l2, hdec, ha, hnone⟩ := findSome?_eq_some_decomp _ _ _ h
  cases hma : m s a with
  | none => rw [hma] at ha; cases ha
  | some e' =>
    rw [hma] at ha
    simp only [Option.map_some'] at ha
    rw [Option.some.injEq, Prod.mk.injEq] at ha
    obtain ⟨rfl, rfl⟩ := ha
    refine ⟨hma, ?_⟩
    intro j hj
    have hmem := mem_prefix_of_range _ _ _ _ hdec j hj
    have hjn := hnone j hmem
    cases hmj : m s j with
    | none => rfl
    | some x => rw [hmj] at hjn; simp at hjn

lemma parseAmount_15rb : parseAmount (String.mk ['1', '5', 'r', 'b']) = some 15000 := by
  have h : parseAmount "15rb" = some ((jsRound (fracValue ['1', '5'] [] * 1000) : ℚ)) := rfl
  rw [show String.mk ['1', '5', 'r', 'b'] = "15rb" from rfl, h, fracValue,
    show digitsVal ['1', '5'] = 15 from rfl, show digitsVal [] = 0 from rfl]
  norm_num [jsRound]

/-- Evaluation helper: `parseInput` returning `null` because the cleaned
description is empty after removing the amount. -/
lemma parseInput_eq_none_of_empty_desc (input : String) (sub : List Char)
    (q : ℚ)
    (h1 : (trimChars input.data).isEmpty = false)
    (h2 : extractAmountStr (trimChars input.data) = some sub)
    (h3 : parseAmount (String.mk sub) = some q)
    (h4 : ¬ q ≤ 0)
    (h5 : trimChars (stripEdgePunct (collapseWs (trimChars
            (removeFirstSub (trimChars input.data) sub)))) = []) :
    parseInput input = none := by
  unfold parseInput
  simp only [h1, h2, h3, h5, Bool.false_eq_true, if_false, if_neg h4,
    List.isEmpty_nil, if_true]

/-- A successful extraction comes from the first pattern with a match, at
its leftmost position. -/
lemma extractAmountStr_decomp (s sub : List Char)
    (h : extractAmountStr s = some sub) :
    ∃ pats1 m pats2, amountPatterns = pats1 ++ m :: pats2 ∧
      (∀ m' ∈ pats1, firstMatchPos m' s = none) ∧
      ∃ i e, firstMatchPos m s = some (i, e) ∧
        sub = (s.drop i).take (e - i) := by
  unfold extractAmountStr at h
  obtain ⟨l1, mm, l2, hdec, hm, hnone⟩ := findSome?_eq_some_decomp _ _ _ h
  refine ⟨l1, mm, l2, hdec, ?_, ?_⟩
  · intro m' hm'
    have hm'n := hnone m' hm'
    cases hfm : firstMatchPos m' s with
    | none => rfl
    | some p => rw [hfm] at hm'n; simp at hm'n
  · cases hfm : firstMatchPos mm s with
    | none => rw [hfm] at hm; cases hm
    | some p =>
      rw [hfm] at hm
      simp only [Option.map_some'] at hm
      exact ⟨p.1, p.2, by simp [hfm], (Option.some.inj hm).symm⟩

/-- C4: `splitInput` (= `parseInput`) uses the first of the four extractors
(million suffix, thousand suffix, grouped separator, bare multi-digit) that
matches anywhere in the string; the chosen match is the leftmost one of
that extractor, regardless of its position in the input; and the concrete
behaviors: `"bakso 15rb"` and `"15rb bakso"` both yield
`{description: "bakso", amount: 15000}`, `"bakso enak"` has no amount, and
`"15rb"` leaves no description. -/
theorem splitInput_first_extractor_leftmost :
    (∀ (m : List Char → ℕ → Option ℕ) (s : List Char) (i e : ℕ),
       firstMatchPos m s = some (i, e) →
       m s i = some e ∧ ∀ j < i, m s j = none)
  ∧ (∀ (s sub : List Char),
       extractAmountStr s = some sub →
       ∃ pats1 m pats2, amountPatterns = pats1 ++ m :: pats2 ∧
         (∀ m' ∈ pats1, firstMatchPos m' s = none) ∧
         ∃ i e, firstMatchPos m s = some (i, e) ∧
           sub = (s.drop i).take (e - i))
  ∧ parseInput "bakso 15rb" = some ⟨"bakso", 15000⟩
  ∧ parseInput "15rb bakso" = some ⟨"bakso", 15000⟩
  ∧ parseInput "bakso enak" = none
  ∧ parseInput "15rb" = none := by
  refine ⟨firstMatchPos_spec, fun s sub h => extractAmountStr_decomp s sub h,
    ?_, ?_, by decide, ?_⟩
  · have := parseInput_eq_some "bakso 15rb" ['1', '5', 'r', 'b'] 15000
      ['b', 'a', 'k', 's', 'o'] (by decide) (by decide) parseAmount_15rb
      (by norm_num) (by decide) (by decide)
    simpa using this
  · have := parseInput_eq_some "15rb bakso" ['1', '5', 'r', 'b'] 15000
      ['b', 'a', 'k', 's', 'o'] (by decide) (by decide) parseAmount_15rb
      (by norm_num) (by decide) (by decide)
    simpa using this
  · exact parseInput_eq_none_of_empty_desc "15rb" ['1', '5', 'r', 'b'] 15000
      (by decide) (by decide) parseAmount_15rb (by norm_num) (by decide)

/-- Witness for C4: the leftmost-match property of the thousand-suffix
extractor on `"ab 15rb"`, whose only match starts at position 3 and ends at
position 7. -/
theorem splitInput_first_extractor_leftmost_witness :
    suffixMatchAt [['r', 'b'], ['r', 'i', 'b', 'u'], ['k']]
      ("ab 15rb" : String).data 3 = some 7 ∧
    ∀ j < 3, suffixMatchAt [['r', 'b'], ['r', 'i', 'b', 'u'], ['k']]
      ("ab 15rb" : String).data j = none :=
  splitInput_first_extractor_leftmost.1
    (suffixMatchAt [['r', 'b'], ['r', 'i', 'b', 'u'], ['k']])
    ("ab 15rb" : String).data 3 7 (by decide)

/-! ### Claim C5: shape lemmas for the extracted amount substring -/

lemma mem_takeWhile_sat (p : Char → Bool) (l : List Char) :
    ∀ c ∈ l.takeWhile p, p c = true := by
  induction l with
  | nil => simp
  | cons x xs ih =>
    intro c hc
    by_cases hx : p x
    · rw [List.takeWhile_cons, if_pos hx] at hc
      rcases List.mem_cons.mp hc with rfl | hc
      · exact hx
      · exact ih c hc
    · rw [List.takeWhile_cons, if_neg hx] at hc
      cases hc

lemma take_subset_takeWhile (p : Char → Bool) :
    ∀ (l : List Char) (k : ℕ), k ≤ (l.takeWhile p).length →
      ∀ c ∈ l.take k, p c = true := by
  intro l
  induction l with
  | nil => intro k _ c hc; simp at hc
  | cons x xs ih =>
    intro k hk c hc
    cases k with
    | zero => simp at hc
    | succ k' =>
      by_cases hx : p x
      · rw [List.take_succ_cons] at hc
        rcases List.mem_cons.mp hc with rfl | hc
        · exact hx
        · refine ih k' ?_ c hc
          rw [List.takeWhile_cons, if_pos hx] at hk
          simpa using hk
      · rw [List.takeWhile_cons, if_neg hx] at hk
        simp at hk
lemma mem_take_of_drop_cons {α : Type} :
    ∀ (l : List α) (j k : ℕ) (x : α) (rest : List α),
      l.drop j = x :: rest → j < k → x ∈ l.take k := by
  intro l
  induction l with
  | nil => intro j k x rest h _; simp at h
  | cons y ys ih =>
    intro j k x rest h hjk
    cases j with
    | zero =>
      simp only [List.drop_zero] at h
      injection h with h1 _
      cases k with
      | zero => omega
      | succ k' => rw [List.take_succ_cons]; simp [h1]
    | succ j' =>
      rw [List.drop_succ_cons] at h
      cases k with
      | zero => omega
      | succ k' =>
        rw [List.take_succ_cons]
        exact List.mem_cons.mpr (Or.inr (ih j' k' x rest h (by omega)))

/-- The trim-and-lowercase cleaning of `parseAmount` is the identity on
space-free, lowercase-invariant strings. -/
lemma clean_eq_self (l : List Char)
    (hns : ∀ c ∈ l, isSpaceChar c = false)
    (hlow : ∀ c ∈ l, lowerChar c = c) :
    (trimChars (String.mk l).data).map lowerChar = l := by
  show (trimChars l).map lowerChar = l
  have h1 : headNot isSpaceChar l := by
    cases l with
    | nil => trivial
    | cons c cs => exact hns c (by simp)
  have h2 : headNot isSpaceChar l.reverse := by
    cases hr : l.reverse with
    | nil => trivial
    | cons c cs =>
      have : c ∈ l := by
        rw [← List.mem_reverse, hr]
        simp
      exact hns c this
  rw [trimChars_eq_self l h1 h2, map_lowerChar_id l hlow]

lemma matchDecimal_chars (l : List Char) (d1 d2 : List Char)
    (h : matchDecimal l = some (d1, d2)) :
    ∀ c ∈ l, isDigitChar c = true ∨ isSepChar c = true := by
  simp only [matchDecimal] at h
  cases hdw : l.dropWhile isDigitChar with
  | nil => rw [hdw] at h; cases h
  | cons c rest =>
    rw [hdw] at h
    change (if isSepChar c = true ∧ ¬(l.takeWhile isDigitChar).isEmpty = true ∧
        ¬rest.isEmpty = true ∧ rest.all isDigitChar = true then
        some (l.takeWhile isDigitChar, rest) else none) = some (d1, d2) at h
    by_cases hcond : isSepChar c = true ∧ ¬(l.takeWhile isDigitChar).isEmpty = true ∧
        ¬rest.isEmpty = true ∧ rest.all isDigitChar = true
    · intro x hx
      have hsplit : l = l.takeWhile isDigitChar ++ (c :: rest) := by
        rw [← hdw, List.takeWhile_append_dropWhile]
      rw [hsplit] at hx
      rcases List.mem_append.mp hx with hx | hx
      · exact Or.inl (mem_takeWhile_sat _ _ x hx)
      · rcases List.mem_cons.mp hx with rfl | hx
        · exact Or.inr hcond.1
        · exact Or.inl (by simpa using List.all_eq_true.mp hcond.2.2.2 x hx)
    · rw [if_neg hcond] at h
      cases h

lemma matchDecimal_none_of_bad_char (l : List Char) (c : Char)
    (hc : c ∈ l) (hd : isDigitChar c = false) (hs : isSepChar c = false) :
    matchDecimal l = none := by
  cases hm : matchDecimal l with
  | none => rfl
  | some dd =>
    obtain ⟨d1, d2⟩ := dd
    rcases matchDecimal_chars l d1 d2 hm c hc with h | h
    · rw [h] at hd; cases hd
    · rw [h] at hs; cases hs

lemma numEndpoints_ge (s : List Char) (i : ℕ) :
    ∀ e0 ∈ numEndpoints s i, 1 ≤ digitRunLen s i → i + 1 ≤ e0 := by
  intro e0 he0 ha
  simp only [numEndpoints] at he0
  rcases List.mem_append.mp he0 with h | h
  · by_cases hsep : isSepChar (s.getD (i + digitRunLen s i) ' ') = true
    · rw [if_pos hsep] at h
      obtain ⟨j, hj, rfl⟩ := List.mem_map.mp h
      rw [List.mem_range] at hj
      omega
    · rw [if_neg hsep] at h
      cases h
  · obtain ⟨j, hj, rfl⟩ := List.mem_map.mp h
    rw [List.mem_range] at hj
    omega

lemma suffixMatchAt_letter (alts : List (List Char)) (s : List Char) (i e : ℕ)
    (halts : ∀ L ∈ alts, L ≠ [])
    (h : suffixMatchAt alts s i = some e) :
    ∃ c0 ch, c0 ∈ (s.drop i).take (e - i) ∧ lowerChar c0 = ch ∧
      ∃ L ∈ alts, L.head? = some ch := by
  unfold suffixMatchAt at h
  by_cases hz : digitRunLen s i = 0
  · rw [if_pos hz] at h
    cases h
  · rw [if_neg hz] at h
    obtain ⟨l1, e0, l2, hdec, he0eq, -⟩ := findSome?_eq_some_decomp _ _ _ h
    have he0mem : e0 ∈ numEndpoints s i := by rw [hdec]; simp
    have he0ge : i + 1 ≤ e0 := numEndpoints_ge s i e0 he0mem (by omega)
    simp only [suffixEnd] at he0eq
    cases hfa : firstAlt alts s (e0 + spaceRunLen s e0) with
    | none => rw [hfa] at he0eq; cases he0eq
    | some len =>
      rw [hfa] at he0eq
      simp only [Option.map_some'] at he0eq
      injection he0eq with he'
      unfold firstAlt at hfa
      obtain ⟨a1, L, a2, hadec, hLeq, -⟩ := findSome?_eq_some_decomp _ _ _ hfa
      have hLmem : L ∈ alts := by rw [hadec]; simp
      have hLne : L ≠ [] := halts L hLmem
      obtain ⟨ch0, L', rfl⟩ : ∃ ch0 L', L = ch0 :: L' := by
        cases L with
        | nil => exact absurd rfl hLne
        | cons a b => exact ⟨a, b, rfl⟩
      by_cases hsw : startsWith (ch0 :: L')
          ((s.drop (e0 + spaceRunLen s e0)).map lowerChar) = true
      · rw [if_pos hsw] at hLeq
        injection hLeq with hlen
        cases hdp : s.drop (e0 + spaceRunLen s e0) with
        | nil => rw [hdp] at hsw; simp [startsWith] at hsw
        | cons h0 rest =>
          rw [hdp] at hsw
          simp only [List.map_cons, startsWith, Bool.and_eq_true,
            decide_eq_true_eq] at hsw
          refine ⟨h0, ch0, ?_, hsw.1.symm, ch0 :: L', hLmem, rfl⟩
          apply mem_take_of_drop_cons (s.drop i) (e0 + spaceRunLen s e0 - i)
            (e - i) h0 rest
          · rw [List.drop_drop,
              show i + (e0 + spaceRunLen s e0 - i) = e0 + spaceRunLen s e0 by omega]
            exact hdp
          · have hlen1 : 1 ≤ len := by
              rw [← hlen]
              simp
            omega
      · rw [if_neg hsw] at hLeq
        cases hLeq

lemma bareMatchAt_sub_digits (s : List Char) (i e : ℕ)
    (h : bareMatchAt s i = some e) :
    ∀ c ∈ (s.drop i).take (e - i), isDigitChar c = true := by
  unfold bareMatchAt at h
  by_cases hb : boundaryAt s i = true
  · rw [if_pos hb] at h
    obtain ⟨l1, len, l2, hdec, hlen, -⟩ := findSome?_eq_some_decomp _ _ _ h
    by_cases hbe : boundaryAt s (i + len) = true
    · rw [if_pos hbe] at hlen
      injection hlen with hlen'
      have hmem : len ∈ ((List.range (digitRunLen s i + 1)).map
          (fun j => digitRunLen s i - j)).filter (fun len => 2 ≤ len) := by
        rw [hdec]
        simp
      have hle : len ≤ digitRunLen s i := by
        obtain ⟨hmap, -⟩ := List.mem_filter.mp hmem
        obtain ⟨j, -, rfl⟩ := List.mem_map.mp hmap
        omega
      rw [show e - i = len by omega]
      exact take_subset_takeWhile isDigitChar (s.drop i) len hle
    · rw [if_neg hbe] at hlen
      cases hlen
  · rw [if_neg hb] at h
    cases h

lemma groupCount_shape (l : List Char) (r : ℕ) (h : groupCount l = r)
    (hr : 1 ≤ r) :
    ∃ c a b d rest, l = c :: a :: b :: d :: rest ∧ isSepChar c = true ∧
      isDigitChar a = true ∧ isDigitChar b = true ∧ isDigitChar d = true ∧
      groupCount rest = r - 1 := by
  rcases l with - | ⟨c, - | ⟨a, - | ⟨b, - | ⟨d, rest⟩⟩⟩⟩
  · rw [show groupCount [] = 0 from rfl] at h; omega
  · rw [show groupCount [c] = 0 from rfl] at h; omega
  · rw [show groupCount [c, a] = 0 from rfl] at h; omega
  · rw [show groupCount [c, a, b] = 0 from rfl] at h; omega
  · rw [groupCount] at h
    by_cases hcond : (isSepChar c && isDigitChar a && isDigitChar b &&
        isDigitChar d) = true
    · simp only [Bool.and_eq_true] at hcond
      rw [if_pos (by simp [hcond.1.1.1, hcond.1.1.2, hcond.1.2, hcond.2])] at h
      exact ⟨c, a, b, d, rest, rfl, hcond.1.1.1, hcond.1.1.2, hcond.1.2,
        hcond.2, by omega⟩
    · rw [if_neg (by simpa using hcond)] at h
      omega

lemma groupCount_chars :
    ∀ (r : ℕ) (l : List Char), groupCount l = r →
      ∀ c ∈ l.take (4 * r), isDigitChar c = true ∨ isSepChar c = true := by
  intro r
  induction r with
  | zero => intro l _ c hc; simp at hc
  | succ r' ih =>
    intro l h c hc
    obtain ⟨c0, a, b, d, rest, rfl, hsep, hda, hdb, hdd, hrest⟩ :=
      groupCount_shape l (r' + 1) h (by omega)
    rw [show 4 * (r' + 1) = 4 * r' + 1 + 1 + 1 + 1 by ring] at hc
    simp only [List.take_succ_cons] at hc
    rcases List.mem_cons.mp hc with rfl | hc
    · exact Or.inr hsep
    rcases List.mem_cons.mp hc with rfl | hc
    · exact Or.inl hda
    rcases List.mem_cons.mp hc with rfl | hc
    · exact Or.inl hdb
    rcases List.mem_cons.mp hc with rfl | hc
    · exact Or.inl hdd
    · exact ih rest (by simpa using hrest) c hc

lemma sepMatchAt_shape (s : List Char) (i e : ℕ) (h : sepMatchAt s i = some e) :
    ∃ k, (k = 3 ∨ k = 2 ∨ k = 1) ∧ k ≤ digitRunLen s i ∧
      1 ≤ groupCount (s.drop (i + k)) ∧
      e = i + k + 4 * groupCount (s.drop (i + k)) := by
  simp only [sepMatchAt] at h
  obtain ⟨l1, k, l2, hdec, hk, -⟩ := findSome?_eq_some_decomp _ _ _ h
  have hkmem : k = 3 ∨ k = 2 ∨ k = 1 := by
    have : k ∈ ([3, 2, 1] : List ℕ) := by rw [hdec]; simp
    simpa using this
  by_cases hka : k ≤ digitRunLen s i
  · rw [if_pos hka] at hk
    by_cases hr : 1 ≤ groupCount (s.drop (i + k))
    · rw [if_pos hr] at hk
      injection hk with hk'
      exact ⟨k, hkmem, hka, hr, hk'.symm⟩
    · rw [if_neg hr] at hk
      cases hk
  · rw [if_neg hka] at hk
    cases hk

/-- Evaluation of the decimal-fallback matcher on a digit block followed by
a separator and a tail. -/
lemma matchDecimal_eval (A tail : List Char) (c0 : Char)
    (hA : ∀ c ∈ A, isDigitChar c = true) (hAne : A ≠ [])
    (hc0 : isSepChar c0 = true) (htne : tail ≠ []) :
    matchDecimal (A ++ c0 :: tail) =
      (if tail.all isDigitChar = true then some (A, tail) else none) := by
  have hAe : A.isEmpty = false := by
    cases A with
    | nil => exact absurd rfl hAne
    | cons _ _ => rfl
  have hte : tail.isEmpty = false := by
    cases tail with
    | nil => exact absurd rfl htne
    | cons _ _ => rfl
  simp only [matchDecimal]
  rw [takeWhile_run _ A (c0 :: tail) hA (not_digit_of_sep c0 hc0),
    dropWhile_run _ A (c0 :: tail) hA (not_digit_of_sep c0 hc0)]
  change (if isSepChar c0 = true ∧ ¬A.isEmpty = true ∧ ¬tail.isEmpty = true ∧
      tail.all isDigitChar = true then some (A, tail) else none) = _
  by_cases hall : tail.all isDigitChar = true
  · rw [if_pos ⟨hc0, by simp [hAe], by simp [hte], hall⟩, if_pos hall]
  · rw [if_neg (fun hand => hall hand.2.2.2), if_neg hall]

lemma sepMatchAt_no_short_decimal (s : List Char) (i e : ℕ)
    (h : sepMatchAt s i = some e) :
    (∀ c ∈ (s.drop i).take (e - i), isDigitChar c = true ∨ isSepChar c = true) ∧
    ∀ d1 d2, matchDecimal ((s.drop i).take (e - i)) = some (d1, d2) →
      ¬ d2.length < 3 := by
  obtain ⟨k, hkmem, hka, hr, rfl⟩ := sepMatchAt_shape s i e h
  obtain ⟨r, hgc⟩ : ∃ r, groupCount (s.drop (i + k)) = r := ⟨_, rfl⟩
  rw [hgc] at hr ⊢
  have hk1 : 1 ≤ k := by omega
  rw [show i + k + 4 * r - i = k + 4 * r by omega]
  have hdd : (s.drop i).drop k = s.drop (i + k) := by rw [List.drop_drop]
  have hsplit : (s.drop i).take (k + 4 * r) =
      (s.drop i).take k ++ (s.drop (i + k)).take (4 * r) := by
    rw [List.take_add, hdd]
  have hka' : k ≤ ((s.drop i).takeWhile isDigitChar).length := hka
  have hA_digits : ∀ c ∈ (s.drop i).take k, isDigitChar c = true :=
    take_subset_takeWhile _ _ k hka'
  have hAlen : ((s.drop i).take k).length = k := by
    rw [List.length_take]
    have h1 : ((s.drop i).takeWhile isDigitChar).length ≤ (s.drop i).length :=
      List.Sublist.length_le (List.takeWhile_sublist _)
    omega
  have hAne : (s.drop i).take k ≠ [] := by
    intro hnil
    rw [hnil] at hAlen
    simp at hAlen
    omega
  constructor
  · intro c hc
    rw [hsplit] at hc
    rcases List.mem_append.mp hc with hc | hc
    · exact Or.inl (hA_digits c hc)
    · exact groupCount_chars r (s.drop (i + k)) hgc c hc
  · intro d1 d2 hmd hlt
    obtain ⟨c0, a, b, d, rest, hdecomp, hsep, hda, hdb, hdd3, hrest⟩ :=
      groupCount_shape (s.drop (i + k)) r hgc hr
    obtain ⟨r', rfl⟩ : ∃ r', r = r' + 1 := ⟨r - 1, by omega⟩
    have hgtake : (s.drop (i + k)).take (4 * (r' + 1)) =
        c0 :: a :: b :: d :: rest.take (4 * r') := by
      rw [hdecomp, show 4 * (r' + 1) = 4 * r' + 1 + 1 + 1 + 1 by ring]
      simp [List.take_succ_cons]
    rw [hsplit, hgtake] at hmd
    rw [matchDecimal_eval _ _ _ hA_digits hAne hsep (by simp)] at hmd
    by_cases hr' : r' = 0
    · subst hr'
      simp only [Nat.mul_zero, List.take_zero] at hmd
      have hall : ([a, b, d] : List Char).all isDigitChar = true := by
        simp [hda, hdb, hdd3]
      rw [if_pos hall] at hmd
      injection hmd with hmd'
      have : d2 = [a, b, d] := (Prod.mk.injEq _ _ _ _ ▸ hmd').2.symm
      rw [this] at hlt
      simp at hlt
    · have hr'1 : 1 ≤ groupCount rest := by omega
      obtain ⟨c1, a1, b1, d1', rest1, hdecomp1, hsep1, -, -, -, -⟩ :=
        groupCount_shape rest (groupCount rest) rfl hr'1
      have hc1mem : c1 ∈ a :: b :: d :: rest.take (4 * r') := by
        have : c1 ∈ rest.take (4 * r') := by
          rw [hdecomp1]
          cases hz : 4 * r' with
          | zero => omega
          | succ n => rw [hz] at *; simp [List.take_succ_cons]
        simp [this]
      have hnall : (a :: b :: d :: rest.take (4 * r')).all isDigitChar = false := by
        rw [List.all_eq_false]
        exact ⟨c1, hc1mem, by simp [not_digit_of_sep c1 hsep1]⟩
      rw [if_neg (by simp [hnall])] at hmd
      cases hmd

/-- No extracted amount substring can take the short-fraction decimal
branch of `parseAmount`: suffix tokens contain a suffix letter, separator
tokens carry a three-digit group, and bare tokens are digits only. -/
lemma extract_no_short_decimal (s sub : List Char)
    (h : extractAmountStr s = some sub) :
    ∀ d1 d2, matchDecimal ((trimChars (String.mk sub).data).map lowerChar) =
      some (d1, d2) → ¬ d2.length < 3 := by
  obtain ⟨pats1, m, pats2, hdec, -, i, e, hfm, rfl⟩ := extractAmountStr_decomp s sub h
  have hmem : m ∈ amountPatterns := by rw [hdec]; simp
  have hm4 : m = suffixMatchAt [['j', 't'], ['j', 'u', 't', 'a']] ∨
      m = suffixMatchAt [['r', 'b'], ['r', 'i', 'b', 'u'], ['k']] ∨
      m = sepMatchAt ∨ m = bareMatchAt := by
    simpa [amountPatterns] using hmem
  obtain ⟨hms, -⟩ := firstMatchPos_spec m s i e hfm
  rcases hm4 with rfl | rfl | rfl | rfl
  · obtain ⟨c0, ch, hc0mem, hlow, L, hLmem, hLhead⟩ :=
      suffixMatchAt_letter _ s i e (by decide) hms
    have hLcases : L = ['j', 't'] ∨ L = ['j', 'u', 't', 'a'] := by
      simpa using hLmem
    have hch : ch = 'j' := by
      rcases hLcases with rfl | rfl <;> exact (Option.some.inj hLhead).symm
    subst hch
    have hc0ns : isSpaceChar c0 = false := by
      cases hsp : isSpaceChar c0 with
      | false => rfl
      | true =>
        rw [lowerChar_space c0 hsp] at hlow
        subst hlow
        simp [isSpaceChar] at hsp
    intro d1 d2 hmd
    have hmem2 : lowerChar c0 ∈
        (trimChars (String.mk ((s.drop i).take (e - i))).data).map lowerChar := by
      show lowerChar c0 ∈ (trimChars ((s.drop i).take (e - i))).map lowerChar
      exact List.mem_map_of_mem _ (mem_trimChars _ c0 hc0mem hc0ns)
    rw [hlow] at hmem2
    have hnone := matchDecimal_none_of_bad_char _ 'j' hmem2 (by decide) (by decide)
    rw [hnone] at hmd
    cases hmd
  · obtain ⟨c0, ch, hc0mem, hlow, L, hLmem, hLhead⟩ :=
      suffixMatchAt_letter _ s i e (by decide) hms
    have hLcases : L = ['r', 'b'] ∨ L = ['r', 'i', 'b', 'u'] ∨ L = ['k'] := by
      simpa using hLmem
    have hch : ch = 'r' ∨ ch = 'k' := by
      rcases hLcases with rfl | rfl | rfl
      · exact Or.inl (Option.some.inj hLhead).symm
      · exact Or.inl (Option.some.inj hLhead).symm
      · exact Or.inr (Option.some.inj hLhead).symm
    have hc0ns : isSpaceChar c0 = false := by
      cases hsp : isSpaceChar c0 with
      | false => rfl
      | true =>
        rw [lowerChar_space c0 hsp] at hlow
        subst hlow
        rcases hch with rfl | rfl <;> simp [isSpaceChar] at hsp
    intro d1 d2 hmd
    have hmem2 : lowerChar c0 ∈
        (trimChars (String.mk ((s.drop i).take (e - i))).data).map lowerChar := by
      show lowerChar c0 ∈ (trimChars ((s.drop i).take (e - i))).map lowerChar
      exact List.mem_map_of_mem _ (mem_trimChars _ c0 hc0mem hc0ns)
    rw [hlow] at hmem2
    have hnone : matchDecimal ((trimChars (String.mk
        ((s.drop i).take (e - i))).data).map lowerChar) = none := by
      rcases hch with rfl | rfl <;>
        exact matchDecimal_none_of_bad_char _ _ hmem2 (by decide) (by decide)
    rw [hnone] at hmd
    cases hmd
  · obtain ⟨hchars, hnos⟩ := sepMatchAt_no_short_decimal s i e hms
    have hclean : (trimChars (String.mk
        ((s.drop i).take (e - i))).data).map lowerChar = (s.drop i).take (e - i) := by
      refine clean_eq_self _ (fun c hc => ?_) (fun c hc => ?_)
      · rcases hchars c hc with h' | h'
        · exact not_space_of_digit c h'
        · exact not_space_of_sep c h'
      · rcases hchars c hc with h' | h'
        · exact lowerChar_digit c h'
        · exact lowerChar_sep c h'
    intro d1 d2 hmd
    rw [hclean] at hmd
    exact hnos d1 d2 hmd
  · have hdig := bareMatchAt_sub_digits s i e hms
    have hclean : (trimChars (String.mk
        ((s.drop i).take (e - i))).data).map lowerChar = (s.drop i).take (e - i) :=
      clean_eq_self _ (fun c hc => not_space_of_digit c (hdig c hc))
        (fun c hc => lowerChar_digit c (hdig c hc))
    intro d1 d2 hmd
    rw [hclean] at hmd
    have hnone : matchDecimal ((s.drop i).take (e - i)) = none := by
      simp only [matchDecimal]
      rw [dropWhile_eq_nil_of_all _ _ hdig]
    rw [hnone] at hmd
    cases hmd

/-! ### Claim C5 -/

/-- Counterexamples to C5 as stated, one for each false conjunct.
First: `replace(amountStr, '')` removes the *first occurrence* of the
matched substring rather than the matched occurrence, so on `"a12b 12"`
the bare-digit extractor matches the final `"12"` but the `"12"` inside
`"a12b"` is deleted, and the returned description `"ab 12"` still contains
the matched amount substring.  Second: the punctuation strip runs *before*
the final trim, so punctuation shielded by whitespace survives and is then
exposed: on `". - a 12"` the strip removes only the leading `'.'` and the
returned description `"- a"` starts with the punctuation character `'-'`
— the description is not punctuation-stripped. -/
theorem parseInput_desc_contains_amount :
    (parseInput "a12b 12" = some ⟨"ab 12", 12⟩ ∧
      containsSub ("ab 12" : String).data ("12" : String).data = true) ∧
    (parseInput ". - a 12" = some ⟨"- a", 12⟩ ∧
      isPunctChar (("- a" : String).data.headD ' ') = true) := by
  refine ⟨⟨?_, ?_⟩, ?_, ?_⟩
  · decide
  · decide
  · decide
  · decide

set_option maxHeartbeats 1600000 in
/-- C5 amended: on every successful `splitInput` the amount is a positive
integer and the description is nonempty and trimmed.  Both remaining
conjuncts of the claim are false: the cleanup removes the first occurrence
of the matched substring (not necessarily the matched occurrence), so the
description may still contain the amount substring, and the punctuation
strip precedes the final trim, so the description may start or end with
punctuation exposed by that trim. -/
theorem parseInput_result_invariants (input : String) (r : ParsedInput)
    (h : parseInput input = some r) :
    0 < r.amount ∧ (∃ n : ℤ, r.amount = (n : ℚ)) ∧
    r.description.data ≠ [] ∧
    trimChars r.description.data = r.description.data := by
  simp only [parseInput] at h
  by_cases h1 : (trimChars input.data).isEmpty = true
  · rw [if_pos h1] at h
    cases h
  · rw [if_neg h1] at h
    cases hex : extractAmountStr (trimChars input.data) with
    | none =>
      rw [hex] at h
      cases h
    | some sub =>
      rw [hex] at h
      change (match parseAmount (String.mk sub) with
        | none => (none : Option ParsedInput)
        | some amount =>
          if amount ≤ 0 then none
          else
            if (trimChars (stripEdgePunct (collapseWs (trimChars
                (removeFirstSub (trimChars input.data) sub))))).isEmpty = true then
              none
            else some ⟨String.mk (trimChars (stripEdgePunct (collapseWs (trimChars
                (removeFirstSub (trimChars input.data) sub))))), amount⟩) = some r at h
      cases hpa : parseAmount (String.mk sub) with
      | none =>
        rw [hpa] at h
        change (none : Option ParsedInput) = some r at h
        cases h
      | some q =>
        rw [hpa] at h
        change (if q ≤ 0 then none else
          (if (trimChars (stripEdgePunct (collapseWs (trimChars
              (removeFirstSub (trimChars input.data) sub))))).isEmpty then
            (none : Option ParsedInput)
          else some ⟨String.mk (trimChars (stripEdgePunct (collapseWs (trimChars
              (removeFirstSub (trimChars input.data) sub))))), q⟩)) = some r at h
        by_cases hq : q ≤ 0
        · rw [if_pos hq] at h
          cases h
        · rw [if_neg hq] at h
          obtain ⟨X, hX⟩ : ∃ X, trimChars (stripEdgePunct (collapseWs (trimChars
              (removeFirstSub (trimChars input.data) sub)))) = X := ⟨_, rfl⟩
          simp only [hX] at h
          by_cases hde : X.isEmpty = true
          · rw [if_pos hde] at h
            cases h
          · rw [if_neg hde] at h
            injection h with h'
            subst h'
            refine ⟨not_le.mp hq, ?_, ?_, ?_⟩
            · rcases parseAmount_integer_cases (String.mk sub) q hpa with
                hint | ⟨d1, d2, hmd, hlen, -⟩
              · exact hint
              · exact absurd hlen (extract_no_short_decimal _ sub hex d1 d2 hmd)
            · intro hnil
              apply hde
              have hx : X = [] := hnil
              rw [hx]
              rfl
            · show trimChars X = X
              rw [← hX]
              exact trimChars_idem _

/-- Witness for amended C5: the invariants instantiated on
`parseInput "bakso 15rb"`. -/
theorem parseInput_result_invariants_witness :
    0 < ((15000 : ℚ)) ∧ (∃ n : ℤ, (15000 : ℚ) = (n : ℚ)) ∧
    ("bakso" : String).data ≠ [] ∧
    trimChars ("bakso" : String).data = ("bakso" : String).data := by
  have h : parseInput "bakso 15rb" = some ⟨"bakso", 15000⟩ := by
    have := parseInput_eq_some "bakso 15rb" ['1', '5', 'r', 'b'] 15000
      ['b', 'a', 'k', 's', 'o'] (by decide) (by decide) parseAmount_15rb
      (by norm_num) (by decide) (by decide)
    simpa using this
  simpa using parseInput_result_invariants "bakso 15rb" ⟨"bakso", 15000⟩ h

end Duit
